import Mathlib

/-
Verification of the AetherMart pipeline orchestrator
(src/Phase6_Orchestration/orchestrator.py) and of the staged-validation
ELT pattern (orchestrator.py and src/Phase4_AI_Search/M4_p2.py).

The Python code is shallowly embedded: the task registry is a list of
tasks in registration order (Python dicts preserve insertion order),
the depth-first resolver `_topological_sort` is embedded with an explicit
fuel argument (the recursion always terminates because the visited set
grows; the fuel passed by `topological_sort` is proven sufficient),
the execution engine `run` is a fold over the resolved order, and the
retry decorator is a function from attempt index to outcome.  Wall-clock
timestamps and the database connection are outside the embedding; a
task's unit of work is modelled by its final outcome (returned value or
raised error message).
-/

deriving instance DecidableEq for Except

namespace AM

/--
Mirrors the `Task` dataclass of orchestrator.py: a name, the list of
dependency names (`deps or []`), the criticality flag, and the behaviour
of `task.func` summarised as its final outcome: `Except.ok (some n)` for
a call returning the int `n`, `Except.ok none` for a non-int return, and
`Except.error e` for a call that raises with message `e` (retries, which
happen inside the decorated `func`, are modelled separately by
`retry_with_backoff`).
-/
structure Task where
  name : String
  deps : List String
  critical : Bool
  ret : Except String (Option Nat)
deriving DecidableEq, Repr

/-- `self.tasks.get(name)`: the registry lookup (first task with the name). -/
def findTask (ts : List Task) (n : String) : Option Task :=
  ts.find? (fun t => t.name == n)

/--
`Orchestrator.add`: Python dict assignment `self.tasks[name] = Task(...)`.
If the name exists the task is replaced in place (the dict keeps the
original key position); otherwise it is appended.  No error is raised
and no operation is invoked.
-/
def add (ts : List Task) (t : Task) : List Task :=
  if ts.any (fun u => u.name == t.name) then
    ts.map (fun u => if u.name == t.name then t else u)
  else
    ts ++ [t]

/-- The direct dependency relation of a registry: `depRel ts a b` holds
when some registered task named `a` lists `b` among its dependencies. -/
def depRel (ts : List Task) (a b : String) : Prop :=
  ∃ t ∈ ts, t.name = a ∧ b ∈ t.deps

/-- All names mentioned by the registry (task names and dependency names);
only used to size the fuel of the embedded depth-first traversal. -/
def allNames (ts : List Task) : List String :=
  ts.map Task.name ++ ts.flatMap Task.deps

/--
The inner `visit(name)` of `Orchestrator._topological_sort`, embedded on a
state `(visited, order)`.  Faithful to the source: a name already visited
is skipped silently (the code has no on-stack cycle check), an
unregistered name is added to `visited` but never appended to `order`,
and a registered task is appended after all its dependencies have been
visited.  `fuel` bounds the recursion depth and is an artefact of the
embedding; `visitFuel` below is proven sufficient.
-/
def visit (ts : List Task) : Nat → String → List String × List String → List String × List String
  | 0, _, vo => vo
  | fuel+1, n, vo =>
    if n ∈ vo.1 then vo
    else
      match findTask ts n with
      | none => (n :: vo.1, vo.2)
      | some t =>
        let vo' := t.deps.foldl (fun acc d => visit ts fuel d acc) (n :: vo.1, vo.2)
        (vo'.1, vo'.2 ++ [n])

/-- Fuel sufficient for every call made by `topological_sort`. -/
def visitFuel (ts : List Task) : Nat :=
  (allNames ts).length + 1

/-- `Orchestrator._topological_sort`: visit every task in registration
order and return the accumulated order. -/
def topological_sort (ts : List Task) : List String :=
  (ts.foldl (fun vo t => visit ts (visitFuel ts) t.name vo) ([], [])).2

/-- The five statuses of the `Status` enum. -/
inductive Status where
  | PENDING
  | RUNNING
  | SUCCESS
  | FAILED
  | SKIPPED
deriving DecidableEq, Repr

/-- The observable fields of a terminal `TaskResult` (timestamps are
wall-clock and stay outside the embedding; the task name is the key of
the results map). -/
structure TaskResult where
  status : Status
  records : Nat
  error : Option String
deriving DecidableEq, Repr

/-- `self.results.get(name)`. -/
def lookupResult (rs : List (String × TaskResult)) (n : String) : Option TaskResult :=
  (rs.find? (fun p => p.1 == n)).map Prod.snd

/-- `self.results[name] = result`: dict assignment (overwrite in place or
append). -/
def setResult (rs : List (String × TaskResult)) (n : String) (r : TaskResult) :
    List (String × TaskResult) :=
  if rs.any (fun p => p.1 == n) then
    rs.map (fun p => if p.1 == n then (n, r) else p)
  else
    rs ++ [(n, r)]

/-- `Orchestrator._can_run`: every dependency must have a recorded result
with status SUCCESS. -/
def can_run (rs : List (String × TaskResult)) (t : Task) : Bool :=
  t.deps.all fun d =>
    match lookupResult rs d with
    | some r => r.status == Status.SUCCESS
    | none => false

/-- `Orchestrator._execute_task`: invoke the task's operation; SUCCESS
with its integer record count (0 for a non-int return) or FAILED with the
error detail. -/
def execute_task (t : Task) : TaskResult :=
  match t.ret with
  | Except.ok v => { status := Status.SUCCESS, records := v.getD 0, error := none }
  | Except.error e => { status := Status.FAILED, records := 0, error := some e }

/-- The result recorded on the skip path of `Orchestrator.run`. -/
def skippedResult : TaskResult :=
  { status := Status.SKIPPED, records := 0, error := none }

/-- Observable side effects of a run: a task's operation being invoked,
the summary being printed, the results file being written. -/
inductive Event where
  | invoked (name : String)
  | summaryPrinted
  | exportWritten
deriving DecidableEq, Repr

/-- The mutable state of `Orchestrator.run`: the results dict plus the
trace of observable effects. -/
structure EngineState where
  results : List (String × TaskResult)
  events : List Event
deriving DecidableEq, Repr

/--
The main loop of `Orchestrator.run` over the resolved order: a task whose
dependencies are not all SUCCESS is recorded as SKIPPED without invoking
its operation; otherwise the operation is invoked and the result
recorded; a FAILED result of a critical task breaks the loop.
-/
def runLoop (ts : List Task) : List String → EngineState → EngineState
  | [], s => s
  | n :: rest, s =>
    match findTask ts n with
    | none => runLoop ts rest s
    | some t =>
      if can_run s.results t then
        let r := execute_task t
        let s' : EngineState := ⟨setResult s.results n r, s.events ++ [Event.invoked n]⟩
        if r.status == Status.FAILED && t.critical then s' else runLoop ts rest s'
      else
        runLoop ts rest ⟨setResult s.results n skippedResult, s.events⟩

/-- The data printed by `Orchestrator._print_summary`: the SUCCESS count,
the FAILED count (no SKIPPED count is computed by the source), and one
line per recorded task with its status and record count. -/
structure Summary where
  success : Nat
  failed : Nat
  lines : List (String × Status × Nat)
deriving DecidableEq, Repr

/-- `Orchestrator._print_summary` (the total duration it also prints is
wall-clock time, outside the embedding). -/
def print_summary (rs : List (String × TaskResult)) : Summary :=
  { success := (rs.filter fun p => p.2.status == Status.SUCCESS).length
  , failed := (rs.filter fun p => p.2.status == Status.FAILED).length
  , lines := rs.map fun p => (p.1, p.2.status, p.2.records) }

/-- `Orchestrator._export_results`: the structured document written to
`results_<run_id>.json` (per-task status, records, error). -/
def export_results (rs : List (String × TaskResult)) :
    List (String × Status × Nat × Option String) :=
  rs.map fun p => (p.1, p.2.status, p.2.records, p.2.error)

/-- Everything a completed `Orchestrator.run` produces. -/
structure RunOutput where
  results : List (String × TaskResult)
  summary : Summary
  exported : List (String × Status × Nat × Option String)
  events : List Event
deriving DecidableEq, Repr

/-- `Orchestrator.run`: resolve the order, execute the loop, then print
the summary and write the export file (each exactly once, also after a
critical halt). -/
def run (ts : List Task) : RunOutput :=
  let s := runLoop ts (topological_sort ts) ⟨[], []⟩
  { results := s.results
  , summary := print_summary s.results
  , exported := export_results s.results
  , events := s.events ++ [Event.summaryPrinted, Event.exportWritten] }

/--
The loop inside `retry_with_backoff`'s wrapper, from attempt index
`attempt` with structural fuel (the wrapper makes at most
`maxRetries + 1` attempts).  Returns the list of delays slept and the
final outcome.  `op k` is the outcome of the wrapped operation on
attempt `k`; delays are exact rationals (`CONFIG['RETRY_DELAY'] *
CONFIG['RETRY_BACKOFF'] ** attempt`).
-/
def retryGo (op : Nat → Except String Nat) (maxRetries : Nat) (initialDelay backoff : ℚ) :
    Nat → Nat → List ℚ × Except String Nat
  | _, 0 => ([], Except.error "")
  | attempt, fuel+1 =>
    match op attempt with
    | Except.ok v => ([], Except.ok v)
    | Except.error e =>
      if maxRetries ≤ attempt then ([], Except.error e)
      else
        let d := initialDelay * backoff ^ attempt
        let rest := retryGo op maxRetries initialDelay backoff (attempt+1) fuel
        (d :: rest.1, rest.2)

/-- `retry_with_backoff`: run the wrapper from attempt 0. -/
def retry_with_backoff (op : Nat → Except String Nat) (maxRetries : Nat)
    (initialDelay backoff : ℚ) : List ℚ × Except String Nat :=
  retryGo op maxRetries initialDelay backoff 0 (maxRetries + 1)

/-- A row of a staging table that carries the validation columns
(`is_valid BOOLEAN DEFAULT FALSE`, `error_message`): the data columns
plus the validity flag and error message. -/
structure StagingRecord where
  fields : List (Option String)
  is_valid : Bool
  error_message : Option String
deriving DecidableEq, Repr

namespace Orch

/--
`load_to_staging` of orchestrator.py: if the CSV has no rows, return 0
without touching the table; otherwise TRUNCATE the staging table and
insert each row (empty strings become NULL), skipping any row whose
insert raises (`insertOk` models the database accepting the row) and
counting the rows inserted.
-/
def load_to_staging (insertOk : List (Option String) → Bool)
    (rows : List (List String)) (tbl : List (List (Option String))) :
    List (List (Option String)) × Nat :=
  if rows.isEmpty then (tbl, 0)
  else
    let inserted :=
      (rows.map fun r => r.map fun s => if s = "" then none else some s).filter insertOk
    (inserted, inserted.length)

/--
`load_to_production` of orchestrator.py: `INSERT INTO prod (cols) SELECT
cols FROM stg` with the bookkeeping columns (`load_timestamp`,
`is_valid`, `error_message`) dropped from the column list but NO
`WHERE is_valid = TRUE` filter: every staging row is copied.  Returns the
row count of the production table after the insert.
-/
def load_to_production (stg : List StagingRecord) (prod : List (List (Option String))) :
    List (List (Option String)) × Nat :=
  let moved := stg.map StagingRecord.fields
  (prod ++ moved, (prod ++ moved).length)

end Orch

namespace M4

/-- `AetherMartELTPipeline.load_to_staging`: TRUNCATE then `LOAD DATA
LOCAL INFILE` of every CSV row; the previous batch content never
survives. -/
def load_to_staging (rows : List (List String)) (tbl : List (List String)) :
    List (List String) × Nat :=
  let _ := tbl
  (rows, rows.length)

/-- `AetherMartELTPipeline.load_to_production` for a table with
validation columns (customers, orders, reviews): count the rows with
`is_valid = TRUE`; if zero, a zero-effect non-error outcome; otherwise
insert exactly the rows `WHERE is_valid = TRUE`. -/
def load_to_production (stg : List StagingRecord) (prod : List (List (Option String))) :
    List (List (Option String)) × Nat :=
  let valid := stg.filter StagingRecord.is_valid
  if valid.length = 0 then (prod, 0)
  else (prod ++ valid.map StagingRecord.fields, valid.length)

end M4

/-- A three-task chain used to instantiate the resolver theorems. -/
def tsChain : List Task :=
  [⟨"A", [], true, Except.ok (some 1)⟩,
   ⟨"B", ["A"], true, Except.ok (some 2)⟩,
   ⟨"C", ["A", "B"], true, Except.ok none⟩]

/-- The registry with the dependency cycle A → B → A of spec section 8. -/
def tsCycle : List Task :=
  [⟨"A", ["B"], true, Except.ok none⟩,
   ⟨"B", ["A"], true, Except.ok none⟩]

/-- A registry whose only task references a dependency name that is never
registered. -/
def tsGhost : List Task :=
  [⟨"A", ["ghost"], true, Except.ok (some 1)⟩]

/-- The end-to-end scenario of spec section 8: A succeeds with 2 records,
B always fails and is critical, C depends on A and B. -/
def tsEnd : List Task :=
  [⟨"A", [], true, Except.ok (some 2)⟩,
   ⟨"B", [], true, Except.error "boom"⟩,
   ⟨"C", ["A", "B"], true, Except.ok none⟩]

/-- A mixed registry: B fails non-critically, C depends on B (so is
skipped), D depends only on A (so runs normally). -/
def tsMix : List Task :=
  [⟨"A", [], true, Except.ok (some 1)⟩,
   ⟨"B", [], false, Except.error "x"⟩,
   ⟨"C", ["B"], true, Except.ok (some 3)⟩,
   ⟨"D", ["A"], true, Except.ok (some 4)⟩]

/-- The registered names, in registration order. -/
def names (ts : List Task) : List String :=
  ts.map Task.name

/-- The dependency list the resolver sees for a name (empty when the name
is not registered). -/
def depsOf (ts : List Task) (n : String) : List String :=
  match findTask ts n with
  | some t => t.deps
  | none => []

/-- Acyclicity of the dependency relation: no name transitively depends
on itself. -/
def Acyclic (ts : List Task) : Prop :=
  ∀ n, ¬ Relation.TransGen (depRel ts) n n

/-- Every dependency of every registered task is itself a registered
name. -/
def DepsRegistered (ts : List Task) : Prop :=
  ∀ t ∈ ts, ∀ d ∈ t.deps, d ∈ names ts

/-- The invariant of the resolver state `(visited, order)`: the order has
no duplicates, is contained in the visited set, contains only registered
tasks whose dependencies are all in the order, and no element is a
dependency of an earlier element. -/
def StInv (ts : List Task) (v o : List String) : Prop :=
  o.Nodup ∧ (∀ x ∈ o, x ∈ v) ∧
  (∀ x ∈ o, ∃ t, findTask ts x = some t ∧ ∀ d ∈ t.deps, d ∈ o) ∧
  o.Pairwise (fun a b => b ∉ depsOf ts a)

/-- How many of the registry's names are not yet visited; the measure
showing `visitFuel` suffices. -/
def cardU (ts : List Task) (v : List String) : Nat :=
  ((allNames ts).toFinset \ v.toFinset).card

/-- Relational summary of one `visit` call: the visited set only grows,
the order is only appended to, and every newly appended order element was
unvisited beforehand. -/
def Rext (vo vo' : List String × List String) : Prop :=
  (∀ x ∈ vo.1, x ∈ vo'.1) ∧ (∃ ext, vo'.2 = vo.2 ++ ext) ∧
  (∀ x ∈ vo'.2, x ∈ vo.2 ∨ x ∉ vo.1)

/-- The hypothesis-free part of the resolver invariant: the order has no
duplicates, is inside the visited set, and contains only registered
names. -/
def BasicInv (ts : List Task) (vo : List String × List String) : Prop :=
  vo.2.Nodup ∧ (∀ x ∈ vo.2, x ∈ vo.1) ∧ (∀ x ∈ vo.2, (findTask ts x).isSome)

/-- Every visited name is either already ordered or on the current
recursion path `p`. -/
def VInv (v o p : List String) : Prop :=
  ∀ x ∈ v, x ∈ o ∨ x ∈ p

/-- `b` appears strictly after `a` in the list `l`. -/
def after (l : List String) (a b : String) : Prop :=
  ∃ l1 l2, l = l1 ++ a :: l2 ∧ b ∈ l2

/-- Every dependency of `t` has a recorded result with status SUCCESS. -/
def depsAllSuccess (rs : List (String × TaskResult)) (t : Task) : Prop :=
  ∀ d ∈ t.deps, ∃ r, lookupResult rs d = some r ∧ r.status = Status.SUCCESS

/-- Every recorded result is explained by the engine's two recording
paths: the task was found in the registry and either its dependencies
were all SUCCESS and the recorded result is the execution result, or
they were not and the recorded result is the SKIPPED result. -/
def ResOK (ts : List Task) (rs : List (String × TaskResult)) : Prop :=
  ∀ n r, lookupResult rs n = some r →
    ∃ t, findTask ts n = some t ∧
      ((can_run rs t = true ∧ r = execute_task t) ∨
       (can_run rs t = false ∧ r = skippedResult))

/-- No dependency of an already recorded task is still pending in the
remaining order (so recorded dependency statuses are stable). -/
def DepsDone (ts : List Task) (rs : List (String × TaskResult)) (ord : List String) : Prop :=
  ∀ n r, lookupResult rs n = some r → ∀ t, findTask ts n = some t → ∀ d ∈ t.deps, d ∉ ord

/-- The invocation events match the recorded results: a task's operation
was invoked exactly when its recorded result is its execution result. -/
def EvOK (ts : List Task) (s : EngineState) : Prop :=
  ∀ n, Event.invoked n ∈ s.events ↔
    ∃ t r, findTask ts n = some t ∧ lookupResult s.results n = some r ∧ r = execute_task t

-- ===================== Resolver: basic lemmas =====================

theorem findTask_mem {ts : List Task} {n : String} {t : Task}
    (h : findTask ts n = some t) : t ∈ ts ∧ t.name = n := by
  refine ⟨List.mem_of_find?_eq_some h, ?_⟩
  have hp := List.find?_some h
  simpa using hp

theorem findTask_isSome_of_mem {ts : List Task} {n : String}
    (h : n ∈ names ts) : (findTask ts n).isSome := by
  rcases List.mem_map.mp h with ⟨t, ht, rfl⟩
  rw [findTask, List.find?_isSome]
  exact ⟨t, ht, by simp⟩

theorem findTask_self {ts : List Task} (H1 : (names ts).Nodup) {t : Task}
    (ht : t ∈ ts) : findTask ts t.name = some t := by
  induction ts with
  | nil => cases ht
  | cons u us ih =>
    have H1' : u.name ∉ names us ∧ (names us).Nodup := by
      simpa [names] using H1
    rcases List.mem_cons.mp ht with rfl | hmem
    · simp [findTask]
    · have hne : (u.name == t.name) = false := by
        rw [beq_eq_false_iff_ne]
        intro he
        exact H1'.1 (he ▸ List.mem_map_of_mem Task.name hmem)
      simpa [findTask, List.find?, hne] using ih H1'.2 hmem

theorem depsOf_eq {ts : List Task} {n : String} {t : Task}
    (h : findTask ts n = some t) : depsOf ts n = t.deps := by
  simp [depsOf, h]

theorem foldl_visit_rel {ts : List Task} {fuel : Nat}
    (R : List String × List String → List String × List String → Prop)
    (hre : ∀ vo, R vo vo)
    (htr : ∀ a b c, R a b → R b c → R a c)
    (h : ∀ d vo, R vo (visit ts fuel d vo)) :
    ∀ (ds : List String) (vo : List String × List String),
      R vo (ds.foldl (fun acc d => visit ts fuel d acc) vo) := by
  intro ds
  induction ds with
  | nil => intro vo; simpa using hre vo
  | cons d ds ih =>
    intro vo
    simp only [List.foldl_cons]
    exact htr _ _ _ (h d vo) (ih _)

theorem foldl_visit_tasks_rel {ts : List Task} {fuel : Nat}
    (R : List String × List String → List String × List String → Prop)
    (hre : ∀ vo, R vo vo)
    (htr : ∀ a b c, R a b → R b c → R a c)
    (h : ∀ (t : Task) (vo : List String × List String), R vo (visit ts fuel t.name vo)) :
    ∀ (l : List Task) (vo : List String × List String),
      R vo (l.foldl (fun vo t => visit ts fuel t.name vo) vo) := by
  intro l
  induction l with
  | nil => intro vo; simpa using hre vo
  | cons t l ih =>
    intro vo
    simp only [List.foldl_cons]
    exact htr _ _ _ (h t vo) (ih _)

theorem Rext_refl (vo : List String × List String) : Rext vo vo :=
  ⟨fun _ hx => hx, ⟨[], by simp⟩, fun _ hx => Or.inl hx⟩

theorem Rext_trans (a b c : List String × List String) :
    Rext a b → Rext b c → Rext a c := by
  rintro ⟨m1, ⟨e1, he1⟩, n1⟩ ⟨m2, ⟨e2, he2⟩, n2⟩
  refine ⟨fun x hx => m2 x (m1 x hx), ⟨e1 ++ e2, by simp [he2, he1]⟩, ?_⟩
  intro x hx
  rcases n2 x hx with hb | hb
  · exact n1 x hb
  · exact Or.inr fun hv => hb (m1 x hv)

theorem visit_Rext {ts : List Task} :
    ∀ (fuel : Nat) (n : String) (vo : List String × List String),
      Rext vo (visit ts fuel n vo) := by
  intro fuel
  induction fuel with
  | zero => intro n vo; simpa [visit] using Rext_refl vo
  | succ fuel ih =>
    intro n vo
    by_cases hv : n ∈ vo.1
    · simpa [visit, hv] using Rext_refl vo
    · rcases hf : findTask ts n with _ | t
      · refine ⟨fun x hx => ?_, ⟨[], by simp [visit, hv, hf]⟩, fun x hx => ?_⟩
        · simp only [visit, hv, if_neg hv, hf]
          exact List.mem_cons_of_mem _ hx
        · exact Or.inl (by simpa [visit, hv, hf] using hx)
      · have hfold :
            Rext (n :: vo.1, vo.2)
              (t.deps.foldl (fun acc d => visit ts fuel d acc) (n :: vo.1, vo.2)) :=
          foldl_visit_rel Rext Rext_refl Rext_trans (fun d vo' => ih d vo') t.deps _
      -- unfold the successor case of visit
        have hvis : visit ts (fuel+1) n vo =
            ((t.deps.foldl (fun acc d => visit ts fuel d acc) (n :: vo.1, vo.2)).1,
             (t.deps.foldl (fun acc d => visit ts fuel d acc) (n :: vo.1, vo.2)).2 ++ [n]) := by
          simp [visit, hv, hf]
        rw [hvis]
        rcases hfold with ⟨hm, ⟨ext, hext⟩, hnew⟩
        refine ⟨fun x hx => hm x (List.mem_cons_of_mem _ hx),
          ⟨ext ++ [n], by simp [hext]⟩, ?_⟩
        intro x hx
        rcases List.mem_append.mp hx with hx | hx
        · rcases hnew x hx with hb | hb
          · exact Or.inl hb
          · exact Or.inr fun hv1 => hb (List.mem_cons_of_mem _ hv1)
        · have hxn : x = n := by simpa using hx
          exact Or.inr (hxn ▸ hv)

theorem foldl_visit_preserve {ts : List Task} {fuel : Nat}
    (P : List String × List String → Prop)
    (h : ∀ d vo, P vo → P (visit ts fuel d vo)) :
    ∀ (ds : List String) (vo : List String × List String),
      P vo → P (ds.foldl (fun acc d => visit ts fuel d acc) vo) := by
  intro ds
  induction ds with
  | nil => intro vo h0; simpa using h0
  | cons d ds ih =>
    intro vo h0
    simp only [List.foldl_cons]
    exact ih _ (h d vo h0)

theorem visit_BasicInv {ts : List Task} :
    ∀ (fuel : Nat) (n : String) (vo : List String × List String),
      BasicInv ts vo → BasicInv ts (visit ts fuel n vo) := by
  intro fuel
  induction fuel with
  | zero => intro n vo h; simpa [visit] using h
  | succ fuel ih =>
    intro n vo h
    by_cases hv : n ∈ vo.1
    · simpa [visit, hv] using h
    · rcases hf : findTask ts n with _ | t
      · rcases h with ⟨h1, h2, h3⟩
        exact ⟨by simpa [visit, hv, hf] using h1,
          fun x hx => by
            simp only [visit, hv, if_neg hv, hf]
            exact List.mem_cons_of_mem _ (h2 x (by simpa [visit, hv, hf] using hx)),
          fun x hx => h3 x (by simpa [visit, hv, hf] using hx)⟩
      · have hvis : visit ts (fuel+1) n vo =
            ((t.deps.foldl (fun acc d => visit ts fuel d acc) (n :: vo.1, vo.2)).1,
             (t.deps.foldl (fun acc d => visit ts fuel d acc) (n :: vo.1, vo.2)).2 ++ [n]) := by
          simp [visit, hv, hf]
        have hstart : BasicInv ts (n :: vo.1, vo.2) := by
          rcases h with ⟨h1, h2, h3⟩
          exact ⟨h1, fun x hx => List.mem_cons_of_mem _ (h2 x hx), h3⟩
        have hfold := foldl_visit_preserve (BasicInv ts)
          (fun d vo' => ih d vo') t.deps _ hstart
        have hrel :
            Rext (n :: vo.1, vo.2)
              (t.deps.foldl (fun acc d => visit ts fuel d acc) (n :: vo.1, vo.2)) :=
          foldl_visit_rel Rext Rext_refl Rext_trans (fun d vo' => visit_Rext fuel d vo') t.deps _
        rcases hfold with ⟨g1, g2, g3⟩
        rcases hrel with ⟨m1, _, new1⟩
        have hnotin : n ∉ (t.deps.foldl (fun acc d => visit ts fuel d acc) (n :: vo.1, vo.2)).2 := by
          intro hn
          rcases new1 n hn with hb | hb
          · exact hv (h.2.1 n hb)
          · exact hb (List.mem_cons_self n vo.1)
        rw [hvis]
        refine ⟨?_, ?_, ?_⟩
        · rw [List.nodup_append]
          refine ⟨g1, List.nodup_singleton n, ?_⟩
          intro x hx hxn
          have hxeq : x = n := by simpa using hxn
          exact hnotin (hxeq ▸ hx)
        · intro x hx
          rcases List.mem_append.mp hx with hx | hx
          · exact g2 x hx
          · have : x = n := by simpa using hx
            exact this ▸ m1 n (List.mem_cons_self n vo.1)
        · intro x hx
          rcases List.mem_append.mp hx with hx | hx
          · exact g3 x hx
          · have : x = n := by simpa using hx
            simp [this, hf]

theorem topological_sort_basic (ts : List Task) :
    (topological_sort ts).Nodup ∧
      ∀ n ∈ topological_sort ts, (findTask ts n).isSome := by
  have key : ∀ (l : List Task) (vo : List String × List String), BasicInv ts vo →
      BasicInv ts (l.foldl (fun vo t => visit ts (visitFuel ts) t.name vo) vo) := by
    intro l
    induction l with
    | nil => intro vo h; simpa using h
    | cons t l ih =>
      intro vo h
      simp only [List.foldl_cons]
      exact ih _ (visit_BasicInv _ _ _ h)
  have h0 : BasicInv ts (([], []) : List String × List String) :=
    ⟨List.nodup_nil, by simp, by simp⟩
  have h := key ts ([], []) h0
  exact ⟨h.1, h.2.2⟩

-- ====================== cardU and fuel lemmas ======================

theorem cardU_lt_visitFuel (ts : List Task) (v : List String) :
    cardU ts v < visitFuel ts := by
  have h1 : ((allNames ts).toFinset \ v.toFinset).card ≤ (allNames ts).toFinset.card :=
    Finset.card_le_card (Finset.sdiff_subset)
  have h2 : (allNames ts).toFinset.card ≤ (allNames ts).length :=
    List.toFinset_card_le _
  exact Nat.lt_succ_of_le (le_trans h1 h2)

theorem cardU_mono {ts : List Task} {v w : List String}
    (h : ∀ x ∈ v, x ∈ w) : cardU ts w ≤ cardU ts v := by
  apply Finset.card_le_card
  apply Finset.sdiff_subset_sdiff (le_refl _)
  intro x hx
  rw [List.mem_toFinset] at hx ⊢
  exact h x hx

theorem cardU_cons_lt {ts : List Task} {v : List String} {n : String}
    (hall : n ∈ allNames ts) (hv : n ∉ v) :
    cardU ts (n :: v) < cardU ts v := by
  apply Finset.card_lt_card
  constructor
  · apply Finset.sdiff_subset_sdiff (le_refl _)
    intro x hx
    rw [List.mem_toFinset] at hx ⊢
    exact List.mem_cons_of_mem _ hx
  · intro hsub
    have hn : n ∈ (allNames ts).toFinset \ v.toFinset := by
      rw [Finset.mem_sdiff, List.mem_toFinset, List.mem_toFinset]
      exact ⟨hall, hv⟩
    have := hsub hn
    rw [Finset.mem_sdiff, List.mem_toFinset, List.mem_toFinset] at this
    exact this.2 (List.mem_cons_self n v)

theorem name_mem_allNames {ts : List Task} {n : String}
    (h : n ∈ names ts) : n ∈ allNames ts :=
  List.mem_append.mpr (Or.inl h)

-- =================== Resolver: soundness (acyclic case) ===================

theorem visit_sound_foldl {ts : List Task} (fuel : Nat)
    (ih : ∀ (n : String) (vo : List String × List String) (p : List String),
      n ∈ names ts → cardU ts vo.1 < fuel → StInv ts vo.1 vo.2 → VInv vo.1 vo.2 p →
      (∀ a ∈ p, a ∈ vo.1) → (∀ a ∈ p, Relation.TransGen (depRel ts) a n) →
      StInv ts (visit ts fuel n vo).1 (visit ts fuel n vo).2 ∧
      VInv (visit ts fuel n vo).1 (visit ts fuel n vo).2 p ∧
      n ∈ (visit ts fuel n vo).2 ∧
      (∀ x ∈ (visit ts fuel n vo).2, x ∈ vo.2 ∨ x ∉ p)) :
    ∀ (ds : List String) (vo : List String × List String) (m : String) (p : List String),
      (∀ d ∈ ds, d ∈ names ts) →
      (∀ d ∈ ds, depRel ts m d) →
      (∀ a ∈ p, Relation.TransGen (depRel ts) a m) →
      cardU ts vo.1 < fuel →
      StInv ts vo.1 vo.2 →
      VInv vo.1 vo.2 (m :: p) →
      (∀ a ∈ m :: p, a ∈ vo.1) →
      StInv ts (ds.foldl (fun acc d => visit ts fuel d acc) vo).1
        (ds.foldl (fun acc d => visit ts fuel d acc) vo).2 ∧
      VInv (ds.foldl (fun acc d => visit ts fuel d acc) vo).1
        (ds.foldl (fun acc d => visit ts fuel d acc) vo).2 (m :: p) ∧
      (∀ d ∈ ds, d ∈ (ds.foldl (fun acc d => visit ts fuel d acc) vo).2) ∧
      (∀ x ∈ (ds.foldl (fun acc d => visit ts fuel d acc) vo).2,
        x ∈ vo.2 ∨ x ∉ m :: p) := by
  intro ds
  induction ds with
  | nil =>
    intro vo m p _ _ _ _ hst hvi _
    exact ⟨hst, hvi, by simp, fun x hx => Or.inl hx⟩
  | cons d ds ihds =>
    intro vo m p hdn hdm hpathm hcard hst hvi hpv
    have hpathd : ∀ a ∈ m :: p, Relation.TransGen (depRel ts) a d := by
      intro a ha
      rcases List.mem_cons.mp ha with rfl | ha
      · exact Relation.TransGen.single (hdm d (List.mem_cons_self d ds))
      · exact Relation.TransGen.tail (hpathm a ha) (hdm d (List.mem_cons_self d ds))
    have hper := ih d vo (m :: p) (hdn d (List.mem_cons_self d ds)) hcard hst hvi hpv hpathd
    obtain ⟨hst1, hvi1, hd1, hnew1⟩ := hper
    have hrel : Rext vo (visit ts fuel d vo) := visit_Rext fuel d vo
    have hcard1 : cardU ts (visit ts fuel d vo).1 < fuel :=
      lt_of_le_of_lt (cardU_mono hrel.1) hcard
    have hpv1 : ∀ a ∈ m :: p, a ∈ (visit ts fuel d vo).1 :=
      fun a ha => hrel.1 a (hpv a ha)
    have hrec := ihds (visit ts fuel d vo) m p
      (fun d' hd' => hdn d' (List.mem_cons_of_mem _ hd'))
      (fun d' hd' => hdm d' (List.mem_cons_of_mem _ hd'))
      hpathm hcard1 hst1 hvi1 hpv1
    obtain ⟨hstF, hviF, hdsF, hnewF⟩ := hrec
    have hofold :
        Rext (visit ts fuel d vo)
          (ds.foldl (fun acc d => visit ts fuel d acc) (visit ts fuel d vo)) :=
      foldl_visit_rel Rext Rext_refl Rext_trans (fun d' vo' => visit_Rext fuel d' vo') ds _
    refine ⟨by simpa [List.foldl_cons] using hstF, by simpa [List.foldl_cons] using hviF, ?_, ?_⟩
    · intro d' hd'
      simp only [List.foldl_cons]
      rcases List.mem_cons.mp hd' with rfl | hd'
      · rcases hofold.2.1 with ⟨ext, hext⟩
        rw [hext]
        exact List.mem_append.mpr (Or.inl hd1)
      · exact hdsF d' hd'
    · intro x hx
      rw [List.foldl_cons] at hx
      rcases hnewF x hx with hb | hb
      · exact hnew1 x hb
      · exact Or.inr hb

theorem visit_sound {ts : List Task} (H2 : DepsRegistered ts) (H3 : Acyclic ts) :
    ∀ (fuel : Nat) (n : String) (vo : List String × List String) (p : List String),
      n ∈ names ts →
      cardU ts vo.1 < fuel →
      StInv ts vo.1 vo.2 →
      VInv vo.1 vo.2 p →
      (∀ a ∈ p, a ∈ vo.1) →
      (∀ a ∈ p, Relation.TransGen (depRel ts) a n) →
      StInv ts (visit ts fuel n vo).1 (visit ts fuel n vo).2 ∧
      VInv (visit ts fuel n vo).1 (visit ts fuel n vo).2 p ∧
      n ∈ (visit ts fuel n vo).2 ∧
      (∀ x ∈ (visit ts fuel n vo).2, x ∈ vo.2 ∨ x ∉ p) := by
  intro fuel
  induction fuel with
  | zero =>
    intro n vo p _ hc
    exact absurd hc (Nat.not_lt_zero _)
  | succ fuel ih =>
    intro n vo p hn hc hst hvi hpv hpath
    by_cases hv : n ∈ vo.1
    · have hvo : visit ts (fuel+1) n vo = vo := by simp [visit, hv]
      rw [hvo]
      have hno : n ∈ vo.2 := by
        rcases hvi n hv with h | h
        · exact h
        · exact absurd (hpath n h) (H3 n)
      exact ⟨hst, hvi, hno, fun x hx => Or.inl hx⟩
    · rcases hf : findTask ts n with _ | t
      · have hs := findTask_isSome_of_mem hn
        rw [hf] at hs
        cases hs
      · have hvis : visit ts (fuel+1) n vo =
            ((t.deps.foldl (fun acc d => visit ts fuel d acc) (n :: vo.1, vo.2)).1,
             (t.deps.foldl (fun acc d => visit ts fuel d acc) (n :: vo.1, vo.2)).2 ++ [n]) := by
          simp [visit, hv, hf]
        obtain ⟨htmem, htname⟩ := findTask_mem hf
        have hcard' : cardU ts ((n :: vo.1, vo.2) : List String × List String).1 < fuel := by
          have h1 : cardU ts (n :: vo.1) < cardU ts vo.1 :=
            cardU_cons_lt (name_mem_allNames hn) hv
          have h2 : cardU ts vo.1 ≤ fuel := Nat.lt_succ_iff.mp hc
          exact lt_of_lt_of_le h1 h2
        have hst' : StInv ts (n :: vo.1) vo.2 :=
          ⟨hst.1, fun x hx => List.mem_cons_of_mem _ (hst.2.1 x hx), hst.2.2.1, hst.2.2.2⟩
        have hvi' : VInv (n :: vo.1) vo.2 (n :: p) := by
          intro x hx
          rcases List.mem_cons.mp hx with rfl | hx
          · exact Or.inr (List.mem_cons_self _ _)
          · rcases hvi x hx with h | h
            · exact Or.inl h
            · exact Or.inr (List.mem_cons_of_mem _ h)
        have hpv' : ∀ a ∈ n :: p, a ∈ ((n :: vo.1, vo.2) : List String × List String).1 := by
          intro a ha
          rcases List.mem_cons.mp ha with rfl | ha
          · exact List.mem_cons_self _ _
          · exact List.mem_cons_of_mem _ (hpv a ha)
        have hdepm : ∀ d ∈ t.deps, depRel ts n d :=
          fun d hd => ⟨t, htmem, htname, hd⟩
        have hdepreg : ∀ d ∈ t.deps, d ∈ names ts :=
          fun d hd => H2 t htmem d hd
        have hfold := visit_sound_foldl fuel ih t.deps (n :: vo.1, vo.2) n p
          hdepreg hdepm hpath hcard' hst' hvi' hpv'
        obtain ⟨hstF, hviF, hdsF, hnewF⟩ := hfold
        set out := t.deps.foldl (fun acc d => visit ts fuel d acc) (n :: vo.1, vo.2) with hout
        have hnO : n ∉ out.2 := by
          intro hmem
          rcases hnewF n hmem with hb | hb
          · exact hv (hst.2.1 n hb)
          · exact hb (List.mem_cons_self n p)
        have hnp : n ∉ p := fun hmem => hv (hpv n hmem)
        rw [hvis]
        refine ⟨?_, ?_, ?_, ?_⟩
        · -- StInv for (out.1, out.2 ++ [n])
          refine ⟨?_, ?_, ?_, ?_⟩
          · rw [List.nodup_append]
            refine ⟨hstF.1, List.nodup_singleton n, ?_⟩
            intro x hx hxn
            have hxeq : x = n := by simpa using hxn
            exact hnO (hxeq ▸ hx)
          · intro x hx
            rcases List.mem_append.mp hx with hx | hx
            · exact hstF.2.1 x hx
            · have hxeq : x = n := by simpa using hx
              rw [hxeq]
              have : n ∈ ((n :: vo.1, vo.2) : List String × List String).1 :=
                List.mem_cons_self _ _
              exact (foldl_visit_rel Rext Rext_refl Rext_trans
                (fun d' vo' => visit_Rext fuel d' vo') t.deps _).1 n this
          · intro x hx
            rcases List.mem_append.mp hx with hx | hx
            · obtain ⟨tx, htx, hdx⟩ := hstF.2.2.1 x hx
              exact ⟨tx, htx, fun d hd => List.mem_append.mpr (Or.inl (hdx d hd))⟩
            · have hxeq : x = n := by simpa using hx
              rw [hxeq]
              exact ⟨t, hf, fun d hd => List.mem_append.mpr (Or.inl (hdsF d hd))⟩
          · rw [List.pairwise_append]
            refine ⟨hstF.2.2.2, List.pairwise_singleton _ _, ?_⟩
            intro a ha b hb
            have hbeq : b = n := by simpa using hb
            subst hbeq
            intro hdep
            obtain ⟨ta, hta, hda⟩ := hstF.2.2.1 a ha
            rw [depsOf_eq hta] at hdep
            exact hnO (hda b hdep)
        · -- VInv
          intro x hx
          rcases hviF x hx with h | h
          · exact Or.inl (List.mem_append.mpr (Or.inl h))
          · rcases List.mem_cons.mp h with rfl | h
            · exact Or.inl (List.mem_append.mpr (Or.inr (List.mem_singleton.mpr rfl)))
            · exact Or.inr h
        · exact List.mem_append.mpr (Or.inr (List.mem_singleton.mpr rfl))
        · intro x hx
          rcases List.mem_append.mp hx with hx | hx
          · rcases hnewF x hx with hb | hb
            · exact Or.inl hb
            · exact Or.inr fun hxp => hb (List.mem_cons_of_mem _ hxp)
          · have hxeq : x = n := by simpa using hx
            rw [hxeq]
            exact Or.inr hnp

theorem topological_sort_sound {ts : List Task} (H2 : DepsRegistered ts)
    (H3 : Acyclic ts) :
    StInv ts (ts.foldl (fun vo t => visit ts (visitFuel ts) t.name vo) ([], [])).1
      (topological_sort ts) ∧
    ∀ t ∈ ts, t.name ∈ topological_sort ts := by
  have key : ∀ (l : List Task), (∀ t ∈ l, t.name ∈ names ts) →
      ∀ vo : List String × List String, StInv ts vo.1 vo.2 → VInv vo.1 vo.2 [] →
      StInv ts (l.foldl (fun vo t => visit ts (visitFuel ts) t.name vo) vo).1
        (l.foldl (fun vo t => visit ts (visitFuel ts) t.name vo) vo).2 ∧
      VInv (l.foldl (fun vo t => visit ts (visitFuel ts) t.name vo) vo).1
        (l.foldl (fun vo t => visit ts (visitFuel ts) t.name vo) vo).2 [] ∧
      ∀ t ∈ l, t.name ∈ (l.foldl (fun vo t => visit ts (visitFuel ts) t.name vo) vo).2 := by
    intro l
    induction l with
    | nil =>
      intro _ vo hst hvi
      exact ⟨by simpa using hst, by simpa using hvi, by simp⟩
    | cons t l ihl =>
      intro hnames vo hst hvi
      have hper := visit_sound H2 H3 (visitFuel ts) t.name vo []
        (hnames t (List.mem_cons_self t l)) (cardU_lt_visitFuel ts vo.1) hst hvi
        (by intro a ha; cases ha) (by intro a ha; cases ha)
      obtain ⟨hst1, hvi1, ht1, _⟩ := hper
      have hrec := ihl (fun u hu => hnames u (List.mem_cons_of_mem _ hu))
        (visit ts (visitFuel ts) t.name vo) hst1 hvi1
      obtain ⟨hstF, hviF, hallF⟩ := hrec
      refine ⟨by simpa [List.foldl_cons] using hstF,
        by simpa [List.foldl_cons] using hviF, ?_⟩
      intro u hu
      simp only [List.foldl_cons]
      rcases List.mem_cons.mp hu with rfl | hu
      · have hofold :
            Rext (visit ts (visitFuel ts) u.name vo)
              (l.foldl (fun vo t => visit ts (visitFuel ts) t.name vo)
                (visit ts (visitFuel ts) u.name vo)) :=
          foldl_visit_tasks_rel Rext Rext_refl Rext_trans
            (fun t' vo' => visit_Rext (visitFuel ts) t'.name vo') l _
        rcases hofold.2.1 with ⟨ext, hext⟩
        rw [hext]
        exact List.mem_append.mpr (Or.inl ht1)
      · exact hallF u hu
  have h0 : StInv ts ([] : List String) ([] : List String) :=
    ⟨List.nodup_nil, by simp, by simp, List.Pairwise.nil⟩
  have hv0 : VInv ([] : List String) ([] : List String) [] := by
    intro x hx; cases hx
  have h := key ts (fun t ht => List.mem_map_of_mem Task.name ht) ([], []) h0 hv0
  exact ⟨h.1, fun t ht => h.2.2 t ht⟩

/-- A rank function decreasing along direct dependencies witnesses
acyclicity of the dependency relation. -/
theorem acyclic_of_rank {ts : List Task} (rank : String → Nat)
    (h : ∀ a b, depRel ts a b → rank b < rank a) : Acyclic ts := by
  intro n hn
  have key : ∀ a b, Relation.TransGen (depRel ts) a b → rank b < rank a := by
    intro a b hab
    induction hab with
    | single h1 => exact h _ _ h1
    | tail _ h1 ih => exact lt_trans (h _ _ h1) ih
  exact absurd (key n n hn) (lt_irrefl _)

/-- The three-task chain registry is acyclic. -/
theorem tsChain_acyclic : Acyclic tsChain := by
  apply acyclic_of_rank (fun s => if s = "C" then 2 else if s = "B" then 1 else 0)
  rintro a b ⟨t, ht, rfl, hdep⟩
  fin_cases ht
  · simp at hdep
  · have hb : b = "A" := by simpa using hdep
    rw [hb]
    decide
  · have hb : b = "A" ∨ b = "B" := by simpa using hdep
    rcases hb with rfl | rfl <;> decide

theorem topo_order_spec (ts : List Task)
    (H1 : (names ts).Nodup) (H2 : DepsRegistered ts) (H3 : Acyclic ts) :
    ∀ t ∈ ts, t.name ∈ topological_sort ts ∧
      ∀ l1 l2, topological_sort ts = l1 ++ t.name :: l2 → ∀ d ∈ t.deps, d ∈ l1 := by
  obtain ⟨hst, hcomp⟩ := topological_sort_sound H2 H3
  intro t ht
  refine ⟨hcomp t ht, ?_⟩
  intro l1 l2 hdecomp d hd
  have hftn := findTask_self H1 ht
  obtain ⟨t', hft', hdeps⟩ := hst.2.2.1 t.name (hcomp t ht)
  rw [hftn] at hft'
  cases hft'
  have hdo : d ∈ topological_sort ts := hdeps d hd
  rw [hdecomp] at hdo
  rcases List.mem_append.mp hdo with hdo | hdo
  · exact hdo
  · rcases List.mem_cons.mp hdo with rfl | hdo
    · exact absurd (Relation.TransGen.single ⟨t, ht, rfl, hd⟩) (H3 t.name)
    · have hpw := hst.2.2.2
      rw [hdecomp, List.pairwise_append] at hpw
      have hrel := (List.pairwise_cons.mp hpw.2.1).1 d hdo
      rw [depsOf_eq hftn] at hrel
      exact absurd hd hrel

/--
C1: For every registry in which each task's dependency list contains only
names of registered tasks and the dependency relation is acyclic, the
resolved execution order contains every registered task and places each
task strictly after all of its dependencies (wherever the task's name
splits the order, all its dependencies lie in the prefix before it).
Registries built through `add` always have distinct task names, which is
hypothesis H1.
-/
theorem resolver_order_correct (ts : List Task)
    (H1 : (names ts).Nodup) (H2 : DepsRegistered ts) (H3 : Acyclic ts) :
    ∀ t ∈ ts, t.name ∈ topological_sort ts ∧
      ∀ l1 l2, topological_sort ts = l1 ++ t.name :: l2 → ∀ d ∈ t.deps, d ∈ l1 :=
  topo_order_spec ts H1 H2 H3

/-- Witness for C1 at the concrete chain registry A, B(A), C(A, B): the
resolved order is computed, C is in it, and its dependency B lies in the
prefix before C. -/
theorem resolver_order_correct_witness :
    "C" ∈ topological_sort tsChain ∧ "B" ∈ (["A", "B"] : List String) := by
  have h := resolver_order_correct tsChain (by decide)
    (by unfold DepsRegistered; decide) tsChain_acyclic
    ⟨"C", ["A", "B"], true, Except.ok none⟩ (by decide)
  exact ⟨h.1, h.2 ["A", "B"] [] (by decide) "B" (by decide)⟩

/--
C2: evaluation of the code on the cycle A depends on B, B depends on A.
The source `_topological_sort` raises no error (no CyclicDependencyError
class exists anywhere in the program): it silently returns the complete
order [B, A], which cannot respect the cyclic dependencies.  The spec
(sections 4.2 and 9) requires `CyclicDependencyError` here and itself
calls the reference behaviour a latent defect.
-/
theorem cycle_resolved_silently :
    topological_sort tsCycle = ["B", "A"] ∧
    "A" ∈ topological_sort tsCycle ∧ "B" ∈ topological_sort tsCycle := by
  decide

-- ===================== Engine: lookup and setResult =====================

theorem lookupResult_cons (k : String) (r : TaskResult) (rs : List (String × TaskResult))
    (n : String) :
    lookupResult ((k, r) :: rs) n = if (k == n) then some r else lookupResult rs n := by
  by_cases h : (k == n) = true
  · simp [lookupResult, List.find?_cons, h]
  · have h' : (k == n) = false := by simpa using h
    simp [lookupResult, List.find?_cons, h']

theorem lookupResult_append_some {rs1 : List (String × TaskResult)} {n : String}
    {r : TaskResult} (h : lookupResult rs1 n = some r)
    (rs2 : List (String × TaskResult)) :
    lookupResult (rs1 ++ rs2) n = some r := by
  induction rs1 with
  | nil => simp [lookupResult] at h
  | cons p rs1 ih =>
    rcases p with ⟨k, x⟩
    rw [lookupResult_cons] at h
    by_cases hk : (k == n) = true
    · rw [if_pos hk] at h
      simpa [lookupResult_cons, hk] using h
    · rw [if_neg hk] at h
      simpa [lookupResult_cons, hk] using ih h

theorem lookupResult_append_none {rs1 : List (String × TaskResult)} {n : String}
    (h : lookupResult rs1 n = none) (rs2 : List (String × TaskResult)) :
    lookupResult (rs1 ++ rs2) n = lookupResult rs2 n := by
  induction rs1 with
  | nil => simp
  | cons p rs1 ih =>
    rcases p with ⟨k, x⟩
    rw [lookupResult_cons] at h
    by_cases hk : (k == n) = true
    · rw [if_pos hk] at h; cases h
    · rw [if_neg hk] at h
      simpa [lookupResult_cons, hk] using ih h

theorem lookupResult_singleton (k n : String) (r : TaskResult) :
    lookupResult [(k, r)] n = if (k == n) then some r else none := by
  rw [lookupResult_cons]
  rfl

theorem setResult_fresh {rs : List (String × TaskResult)} {n : String}
    (h : lookupResult rs n = none) (r : TaskResult) :
    setResult rs n r = rs ++ [(n, r)] := by
  have hany : rs.any (fun p => p.1 == n) = false := by
    rw [List.any_eq_false]
    intro p hp hcontra
    have hk : p.1 = n := by simpa using hcontra
    induction rs with
    | nil => cases hp
    | cons q rs ih =>
      rcases List.mem_cons.mp hp with rfl | hp'
      · rw [lookupResult_cons, if_pos (by simpa using hk)] at h
        cases h
      · rcases q with ⟨kq, xq⟩
        rw [lookupResult_cons] at h
        by_cases hq : (kq == n) = true
        · rw [if_pos hq] at h; cases h
        · rw [if_neg hq] at h
          exact ih h hp'
  simp [setResult, hany]

theorem fresh_lookup_self {rs : List (String × TaskResult)} {n : String}
    (h : lookupResult rs n = none) (r : TaskResult) :
    lookupResult (setResult rs n r) n = some r := by
  rw [setResult_fresh h, lookupResult_append_none h, lookupResult_singleton]
  simp

theorem fresh_lookup_other {rs : List (String × TaskResult)} {n : String}
    (h : lookupResult rs n = none) (r : TaskResult) {m : String} (hm : m ≠ n) :
    lookupResult (setResult rs n r) m = lookupResult rs m := by
  rw [setResult_fresh h]
  rcases hl : lookupResult rs m with _ | x
  · rw [lookupResult_append_none hl, lookupResult_singleton]
    have hne : ¬((n == m) = true) := fun hc => hm ((by simpa using hc : n = m)).symm
    rw [if_neg hne]
  · exact lookupResult_append_some hl _

-- ===================== Engine: can_run lemmas =====================

theorem can_run_true_iff (rs : List (String × TaskResult)) (t : Task) :
    can_run rs t = true ↔ depsAllSuccess rs t := by
  rw [can_run, List.all_eq_true, depsAllSuccess]
  apply forall_congr'
  intro d
  apply imp_congr_right
  intro _
  rcases h : lookupResult rs d with _ | r <;> simp [h]

theorem all_dep_congr (rs rs' : List (String × TaskResult)) (ds : List String)
    (h : ∀ d ∈ ds, lookupResult rs' d = lookupResult rs d) :
    (ds.all fun d =>
      match lookupResult rs' d with
      | some r => r.status == Status.SUCCESS
      | none => false) =
    (ds.all fun d =>
      match lookupResult rs d with
      | some r => r.status == Status.SUCCESS
      | none => false) := by
  induction ds with
  | nil => rfl
  | cons d ds ih =>
    have hd := h d (List.mem_cons_self d ds)
    simp only [List.all_cons, hd,
      ih (fun d' hd' => h d' (List.mem_cons_of_mem _ hd'))]

theorem can_run_congr {rs rs' : List (String × TaskResult)} {t : Task}
    (h : ∀ d ∈ t.deps, lookupResult rs' d = lookupResult rs d) :
    can_run rs' t = can_run rs t :=
  all_dep_congr rs rs' t.deps h

theorem skipped_ne_execute (t : Task) : skippedResult ≠ execute_task t := by
  intro h
  rcases hr : t.ret with e | v <;> rw [execute_task] at h <;> rw [hr] at h <;>
    simp [skippedResult] at h

theorem execute_status (t : Task) :
    (execute_task t).status = Status.SUCCESS ∨ (execute_task t).status = Status.FAILED := by
  rcases hr : t.ret with e | v <;> simp [execute_task, hr]

-- ===================== Engine: main loop characterization =====================

theorem runLoop_spec {ts : List Task} :
    ∀ (ord : List String) (s : EngineState),
      ord.Nodup →
      (∀ n ∈ ord, lookupResult s.results n = none) →
      (∀ n ∈ ord, (findTask ts n).isSome) →
      ord.Pairwise (fun a b => b ∉ depsOf ts a) →
      ResOK ts s.results →
      DepsDone ts s.results ord →
      EvOK ts s →
      (∀ n r, lookupResult s.results n = some r →
        lookupResult (runLoop ts ord s).results n = some r) ∧
      (∀ n, n ∉ ord →
        lookupResult (runLoop ts ord s).results n = lookupResult s.results n) ∧
      ResOK ts (runLoop ts ord s).results ∧
      EvOK ts (runLoop ts ord s) ∧
      (∀ m n, after ord m n →
        ∀ r, lookupResult (runLoop ts ord s).results n = some r →
        ∃ rm, lookupResult (runLoop ts ord s).results m = some rm) ∧
      (∀ e ∈ (runLoop ts ord s).events, e ∈ s.events ∨ ∃ n, e = Event.invoked n) := by
  intro ord
  induction ord with
  | nil =>
    intro s _ _ _ _ hres _ hev
    refine ⟨fun n r h => h, fun n _ => rfl, hres, hev, ?_, fun e he => Or.inl he⟩
    rintro m n ⟨l1, l2, hdec, _⟩ r _
    rcases l1 with _ | ⟨x, l1'⟩ <;> cases hdec
  | cons n0 rest ih =>
    intro s hnd hdisj hreg hpw hres hdd hev
    have hf0 : (findTask ts n0).isSome := hreg n0 (List.mem_cons_self n0 rest)
    rcases hft : findTask ts n0 with _ | t0
    · rw [hft] at hf0; cases hf0
    have hlk0 : lookupResult s.results n0 = none := hdisj n0 (List.mem_cons_self n0 rest)
    have hndr : rest.Nodup := (List.nodup_cons.mp hnd).2
    have hn0r : n0 ∉ rest := (List.nodup_cons.mp hnd).1
    have hpwr : rest.Pairwise (fun a b => b ∉ depsOf ts a) := (List.pairwise_cons.mp hpw).2
    have hpw0 : ∀ b ∈ rest, b ∉ depsOf ts n0 := (List.pairwise_cons.mp hpw).1
    by_cases hcr : can_run s.results t0 = true
    · -- execution branch
      have hself : lookupResult
          (setResult s.results n0 (execute_task t0)) n0 = some (execute_task t0) :=
        fresh_lookup_self hlk0 _
      have hother : ∀ m, m ≠ n0 → lookupResult
          (setResult s.results n0 (execute_task t0)) m = lookupResult s.results m :=
        fun m hm => fresh_lookup_other hlk0 _ hm
      have hcan_stable : ∀ n r, lookupResult s.results n = some r →
          ∀ tn, findTask ts n = some tn →
          can_run (setResult s.results n0 (execute_task t0)) tn = can_run s.results tn := by
        intro n r hl tn hftn
        apply can_run_congr
        intro d hd
        have hdn0 : d ≠ n0 := by
          intro he
          exact (hdd n r hl tn hftn d hd) (he ▸ List.mem_cons_self n0 rest)
        exact hother d hdn0
      have hcan0 : can_run (setResult s.results n0 (execute_task t0)) t0 = true := by
        have heq : can_run (setResult s.results n0 (execute_task t0)) t0 =
            can_run s.results t0 := by
          apply can_run_congr
          intro d hd
          have hdn0 : d ≠ n0 := by
            intro he
            rw [can_run_true_iff] at hcr
            obtain ⟨rd, hrd, _⟩ := hcr d hd
            rw [he, hlk0] at hrd
            cases hrd
          exact hother d hdn0
        rw [heq]
        exact hcr
      have hres1 : ResOK ts (setResult s.results n0 (execute_task t0)) := by
        intro n r hl
        by_cases hn : n = n0
        · subst hn
          rw [hself] at hl
          injection hl with hl
          subst hl
          exact ⟨t0, hft, Or.inl ⟨hcan0, rfl⟩⟩
        · rw [hother n hn] at hl
          obtain ⟨tn, hftn, hcase⟩ := hres n r hl
          refine ⟨tn, hftn, ?_⟩
          rw [hcan_stable n r hl tn hftn]
          exact hcase
      have hev1 : EvOK ts
          ⟨setResult s.results n0 (execute_task t0), s.events ++ [Event.invoked n0]⟩ := by
        intro m
        by_cases hm : m = n0
        · subst hm
          constructor
          · intro _
            exact ⟨t0, execute_task t0, hft, hself, rfl⟩
          · intro _
            exact List.mem_append.mpr (Or.inr (List.mem_singleton.mpr rfl))
        · have hmemiff : Event.invoked m ∈ s.events ++ [Event.invoked n0] ↔
              Event.invoked m ∈ s.events := by
            simp [hm]
          rw [hmemiff]
          have := hev m
          rw [this]
          constructor
          · rintro ⟨tn, rn, hftn, hln, hrn⟩
            exact ⟨tn, rn, hftn, by rw [hother m hm]; exact hln, hrn⟩
          · rintro ⟨tn, rn, hftn, hln, hrn⟩
            exact ⟨tn, rn, hftn, by rw [hother m hm] at hln; exact hln, hrn⟩
      have hdd1 : DepsDone ts (setResult s.results n0 (execute_task t0)) rest := by
        intro n r hl tn hftn d hd hdrest
        by_cases hn : n = n0
        · subst hn
          rw [hft] at hftn
          injection hftn with hftn
          subst hftn
          exact (hpw0 d hdrest) (by rw [depsOf_eq hft]; exact hd)
        · rw [hother n hn] at hl
          exact (hdd n r hl tn hftn d hd) (List.mem_cons_of_mem _ hdrest)
      have hdisj1 : ∀ m ∈ rest, lookupResult
          (setResult s.results n0 (execute_task t0)) m = none := by
        intro m hm
        have hmn : m ≠ n0 := fun he => hn0r (he ▸ hm)
        rw [hother m hmn]
        exact hdisj m (List.mem_cons_of_mem _ hm)
      by_cases hhalt : ((execute_task t0).status == Status.FAILED && t0.critical) = true
      · -- halt: the loop stops here
        have hrun : runLoop ts (n0 :: rest) s =
            ⟨setResult s.results n0 (execute_task t0), s.events ++ [Event.invoked n0]⟩ := by
          simp [runLoop, hft, hcr, hhalt]
        rw [hrun]
        refine ⟨?_, ?_, hres1, hev1, ?_, ?_⟩
        · intro n r hl
          have hn : n ≠ n0 := by
            intro he
            rw [he, hlk0] at hl
            cases hl
          rw [hother n hn]
          exact hl
        · intro n hn
          have hnn : n ≠ n0 := fun he => hn (he ▸ List.mem_cons_self n0 rest)
          exact hother n hnn
        · rintro m n ⟨l1, l2, hdec, hnl2⟩ r hl
          have hnrest : n ∈ rest := by
            rcases l1 with _ | ⟨x, l1'⟩
            · injection hdec with h1 h2
              rw [← h2] at hnl2
              exact hnl2
            · injection hdec with h1 h2
              rw [h2]
              exact List.mem_append.mpr (Or.inr (List.mem_cons_of_mem _ hnl2))
          rw [hdisj1 n hnrest] at hl
          cases hl
        · intro e he
          rcases List.mem_append.mp he with he | he
          · exact Or.inl he
          · exact Or.inr ⟨n0, List.mem_singleton.mp he⟩
      · -- continue after a successful or non-critical task
        have hrun : runLoop ts (n0 :: rest) s = runLoop ts rest
            ⟨setResult s.results n0 (execute_task t0), s.events ++ [Event.invoked n0]⟩ := by
          simp [runLoop, hft, hcr, hhalt]
        rw [hrun]
        obtain ⟨ihA, ihB, ihC, ihD, ihE, ihG⟩ := ih
          ⟨setResult s.results n0 (execute_task t0), s.events ++ [Event.invoked n0]⟩
          hndr hdisj1 (fun m hm => hreg m (List.mem_cons_of_mem _ hm)) hpwr hres1 hdd1 hev1
        refine ⟨?_, ?_, ihC, ihD, ?_, ?_⟩
        · intro n r hl
          have hn : n ≠ n0 := by
            intro he
            rw [he, hlk0] at hl
            cases hl
          exact ihA n r (by rw [hother n hn]; exact hl)
        · intro n hn
          have hn1 : n ≠ n0 := fun he => hn (he ▸ List.mem_cons_self n0 rest)
          have hn2 : n ∉ rest := fun hc => hn (List.mem_cons_of_mem _ hc)
          rw [ihB n hn2]
          exact hother n hn1
        · rintro m n ⟨l1, l2, hdec, hnl2⟩ r hl
          rcases l1 with _ | ⟨x, l1'⟩
          · injection hdec with h1 h2
            rw [← h1]
            exact ⟨execute_task t0, ihA n0 (execute_task t0) hself⟩
          · injection hdec with h1 h2
            exact ihE m n ⟨l1', l2, h2, hnl2⟩ r hl
        · intro e he
          rcases ihG e he with he | he
          · rcases List.mem_append.mp he with he' | he'
            · exact Or.inl he'
            · exact Or.inr ⟨n0, List.mem_singleton.mp he'⟩
          · exact Or.inr he
    · -- skip branch: some dependency is not SUCCESS
      have hcrf : can_run s.results t0 = false := by
        rcases hb : can_run s.results t0 with _ | _
        · rfl
        · exact absurd hb hcr
      have hself : lookupResult
          (setResult s.results n0 skippedResult) n0 = some skippedResult :=
        fresh_lookup_self hlk0 _
      have hother : ∀ m, m ≠ n0 → lookupResult
          (setResult s.results n0 skippedResult) m = lookupResult s.results m :=
        fun m hm => fresh_lookup_other hlk0 _ hm
      have hcan_stable : ∀ n r, lookupResult s.results n = some r →
          ∀ tn, findTask ts n = some tn →
          can_run (setResult s.results n0 skippedResult) tn = can_run s.results tn := by
        intro n r hl tn hftn
        apply can_run_congr
        intro d hd
        have hdn0 : d ≠ n0 := by
          intro he
          exact (hdd n r hl tn hftn d hd) (he ▸ List.mem_cons_self n0 rest)
        exact hother d hdn0
      have hcan0 : can_run (setResult s.results n0 skippedResult) t0 = false := by
        rcases hb : can_run (setResult s.results n0 skippedResult) t0 with _ | _
        · rfl
        · exfalso
          rw [can_run_true_iff] at hb
          have hcs : can_run s.results t0 = true := by
            rw [can_run_true_iff]
            intro d hd
            obtain ⟨rd, hrd, hst⟩ := hb d hd
            by_cases hdn0 : d = n0
            · rw [hdn0, hself] at hrd
              injection hrd with hrd
              rw [← hrd] at hst
              cases hst
            · rw [hother d hdn0] at hrd
              exact ⟨rd, hrd, hst⟩
          rw [hcs] at hcrf
          cases hcrf
      have hres1 : ResOK ts (setResult s.results n0 skippedResult) := by
        intro n r hl
        by_cases hn : n = n0
        · subst hn
          rw [hself] at hl
          injection hl with hl
          subst hl
          exact ⟨t0, hft, Or.inr ⟨hcan0, rfl⟩⟩
        · rw [hother n hn] at hl
          obtain ⟨tn, hftn, hcase⟩ := hres n r hl
          refine ⟨tn, hftn, ?_⟩
          rw [hcan_stable n r hl tn hftn]
          exact hcase
      have hev1 : EvOK ts ⟨setResult s.results n0 skippedResult, s.events⟩ := by
        intro m
        by_cases hm : m = n0
        · subst hm
          constructor
          · intro hmem
            obtain ⟨tn, rn, hftn, hln, hrn⟩ := (hev m).mp hmem
            rw [hlk0] at hln
            cases hln
          · rintro ⟨tn, rn, hftn, hln, hrn⟩
            rw [hself] at hln
            injection hln with hln
            rw [← hln] at hrn
            exact absurd hrn (skipped_ne_execute tn)
        · have := hev m
          constructor
          · intro hmem
            obtain ⟨tn, rn, hftn, hln, hrn⟩ := this.mp hmem
            exact ⟨tn, rn, hftn, by rw [hother m hm]; exact hln, hrn⟩
          · rintro ⟨tn, rn, hftn, hln, hrn⟩
            rw [hother m hm] at hln
            exact this.mpr ⟨tn, rn, hftn, hln, hrn⟩
      have hdd1 : DepsDone ts (setResult s.results n0 skippedResult) rest := by
        intro n r hl tn hftn d hd hdrest
        by_cases hn : n = n0
        · subst hn
          rw [hft] at hftn
          injection hftn with hftn
          subst hftn
          exact (hpw0 d hdrest) (by rw [depsOf_eq hft]; exact hd)
        · rw [hother n hn] at hl
          exact (hdd n r hl tn hftn d hd) (List.mem_cons_of_mem _ hdrest)
      have hdisj1 : ∀ m ∈ rest, lookupResult
          (setResult s.results n0 skippedResult) m = none := by
        intro m hm
        have hmn : m ≠ n0 := fun he => hn0r (he ▸ hm)
        rw [hother m hmn]
        exact hdisj m (List.mem_cons_of_mem _ hm)
      have hrun : runLoop ts (n0 :: rest) s = runLoop ts rest
          ⟨setResult s.results n0 skippedResult, s.events⟩ := by
        simp [runLoop, hft, hcrf]
      rw [hrun]
      obtain ⟨ihA, ihB, ihC, ihD, ihE, ihG⟩ := ih
        ⟨setResult s.results n0 skippedResult, s.events⟩
        hndr hdisj1 (fun m hm => hreg m (List.mem_cons_of_mem _ hm)) hpwr hres1 hdd1 hev1
      refine ⟨?_, ?_, ihC, ihD, ?_, ?_⟩
      · intro n r hl
        have hn : n ≠ n0 := by
          intro he
          rw [he, hlk0] at hl
          cases hl
        exact ihA n r (by rw [hother n hn]; exact hl)
      · intro n hn
        have hn1 : n ≠ n0 := fun he => hn (he ▸ List.mem_cons_self n0 rest)
        have hn2 : n ∉ rest := fun hc => hn (List.mem_cons_of_mem _ hc)
        rw [ihB n hn2]
        exact hother n hn1
      · rintro m n ⟨l1, l2, hdec, hnl2⟩ r hl
        rcases l1 with _ | ⟨x, l1'⟩
        · injection hdec with h1 h2
          rw [← h1]
          exact ⟨skippedResult, ihA n0 skippedResult hself⟩
        · injection hdec with h1 h2
          exact ihE m n ⟨l1', l2, h2, hnl2⟩ r hl
      · intro e he
        rcases ihG e he with he | he
        · exact Or.inl he
        · exact Or.inr he

-- ===================== Engine: unconditional lemmas =====================

theorem lookup_map_overwrite_other (rs : List (String × TaskResult)) (k : String)
    (r : TaskResult) (m : String) (h : m ≠ k) :
    lookupResult (rs.map (fun p => if p.1 == k then (k, r) else p)) m =
      lookupResult rs m := by
  induction rs with
  | nil => rfl
  | cons p rs ih =>
    rcases p with ⟨kp, xp⟩
    simp only [List.map_cons]
    by_cases hp : (kp == k) = true
    · have hpk : kp = k := by simpa using hp
      have hkm : (k == m) = false := by
        rw [beq_eq_false_iff_ne]
        exact fun he => h he.symm
      have hpm : (kp == m) = false := by rw [hpk]; exact hkm
      rw [show (if (kp, xp).1 == k then (k, r) else (kp, xp)) = (k, r) from by
        simp [hp]]
      rw [lookupResult_cons, lookupResult_cons, hkm, hpm]
      simp only [Bool.false_eq_true, if_false]
      exact ih
    · have hp' : (kp == k) = false := by simpa using hp
      rw [show (if (kp, xp).1 == k then (k, r) else (kp, xp)) = (kp, xp) from by
        simp [hp']]
      rw [lookupResult_cons, lookupResult_cons]
      by_cases hm : (kp == m) = true
      · rw [hm, if_pos rfl, if_pos rfl]
      · have hm' : (kp == m) = false := by simpa using hm
        rw [hm']
        simp only [Bool.false_eq_true, if_false]
        exact ih

theorem lookupResult_set_other (rs : List (String × TaskResult)) (k : String)
    (r : TaskResult) (m : String) (h : m ≠ k) :
    lookupResult (setResult rs k r) m = lookupResult rs m := by
  rw [setResult]
  by_cases hany : rs.any (fun p => p.1 == k) = true
  · rw [if_pos hany]
    exact lookup_map_overwrite_other rs k r m h
  · rw [if_neg hany]
    rcases hl : lookupResult rs m with _ | x
    · rw [lookupResult_append_none hl, lookupResult_singleton]
      have hkm : ¬((k == m) = true) := by
        simp only [beq_iff_eq]
        exact fun he => h he.symm
      rw [if_neg hkm]
    · exact lookupResult_append_some hl _

theorem lookupResult_set_self (rs : List (String × TaskResult)) (k : String)
    (r : TaskResult) :
    lookupResult (setResult rs k r) k = some r := by
  rw [setResult]
  by_cases hany : rs.any (fun p => p.1 == k) = true
  · rw [if_pos hany]
    induction rs with
    | nil => cases hany
    | cons p rs ih =>
      rcases p with ⟨kp, xp⟩
      simp only [List.map_cons]
      by_cases hp : (kp == k) = true
      · rw [show (if (kp, xp).1 == k then (k, r) else (kp, xp)) = (k, r) from by
          simp [hp]]
        rw [lookupResult_cons]
        simp
      · have hp' : (kp == k) = false := by simpa using hp
        have hrest : rs.any (fun p => p.1 == k) = true := by
          rw [List.any_cons] at hany
          simpa [hp'] using hany
        rw [show (if (kp, xp).1 == k then (k, r) else (kp, xp)) = (kp, xp) from by
          simp [hp']]
        rw [lookupResult_cons, hp']
        simp only [Bool.false_eq_true, if_false]
        exact ih hrest
  · rw [if_neg hany]
    have hnone : lookupResult rs k = none := by
      rcases hl : lookupResult rs k with _ | x
      · rfl
      · exfalso
        apply hany
        rw [List.any_eq_true]
        rcases hf : rs.find? (fun p => p.1 == k) with _ | pr
        · rw [lookupResult, hf] at hl; cases hl
        · have hpr := List.find?_some hf
          exact ⟨pr, List.mem_of_find?_eq_some hf, hpr⟩
    rw [lookupResult_append_none hnone, lookupResult_singleton]
    simp

theorem runLoop_untouched {ts : List Task} :
    ∀ (ord : List String) (s : EngineState) (n : String), n ∉ ord →
      lookupResult (runLoop ts ord s).results n = lookupResult s.results n ∧
      (Event.invoked n ∈ (runLoop ts ord s).events ↔ Event.invoked n ∈ s.events) := by
  intro ord
  induction ord with
  | nil => intro s n _; exact ⟨rfl, Iff.rfl⟩
  | cons n0 rest ih =>
    intro s n hn
    have hn1 : n ≠ n0 := fun he => hn (he ▸ List.mem_cons_self n0 rest)
    have hn2 : n ∉ rest := fun hc => hn (List.mem_cons_of_mem _ hc)
    rcases hft : findTask ts n0 with _ | t0
    · have hrun : runLoop ts (n0 :: rest) s = runLoop ts rest s := by
        simp [runLoop, hft]
      rw [hrun]
      exact ih s n hn2
    · by_cases hcr : can_run s.results t0 = true
      · by_cases hhalt : ((execute_task t0).status == Status.FAILED && t0.critical) = true
        · have hrun : runLoop ts (n0 :: rest) s =
              ⟨setResult s.results n0 (execute_task t0),
               s.events ++ [Event.invoked n0]⟩ := by
            simp [runLoop, hft, hcr, hhalt]
          rw [hrun]
          refine ⟨lookupResult_set_other _ _ _ _ hn1, ?_⟩
          simp [hn1]
        · have hrun : runLoop ts (n0 :: rest) s = runLoop ts rest
              ⟨setResult s.results n0 (execute_task t0),
               s.events ++ [Event.invoked n0]⟩ := by
            simp [runLoop, hft, hcr, hhalt]
          rw [hrun]
          obtain ⟨ha, hb⟩ := ih
            ⟨setResult s.results n0 (execute_task t0),
             s.events ++ [Event.invoked n0]⟩ n hn2
          refine ⟨?_, ?_⟩
          · rw [ha]
            exact lookupResult_set_other _ _ _ _ hn1
          · rw [hb]
            simp [hn1]
      · have hcrf : can_run s.results t0 = false := by
          rcases hb : can_run s.results t0 with _ | _
          · rfl
          · exact absurd hb hcr
        have hrun : runLoop ts (n0 :: rest) s = runLoop ts rest
            ⟨setResult s.results n0 skippedResult, s.events⟩ := by
          simp [runLoop, hft, hcrf]
        rw [hrun]
        obtain ⟨ha, hb⟩ := ih ⟨setResult s.results n0 skippedResult, s.events⟩ n hn2
        refine ⟨?_, by simpa using hb⟩
        rw [ha]
        exact lookupResult_set_other _ _ _ _ hn1

theorem runLoop_events_invoked {ts : List Task} :
    ∀ (ord : List String) (s : EngineState),
      ∀ e ∈ (runLoop ts ord s).events, e ∈ s.events ∨ ∃ k, e = Event.invoked k := by
  intro ord
  induction ord with
  | nil => intro s e he; exact Or.inl he
  | cons n0 rest ih =>
    intro s e he
    rcases hft : findTask ts n0 with _ | t0
    · rw [show runLoop ts (n0 :: rest) s = runLoop ts rest s by simp [runLoop, hft]] at he
      exact ih s e he
    · by_cases hcr : can_run s.results t0 = true
      · by_cases hhalt : ((execute_task t0).status == Status.FAILED && t0.critical) = true
        · rw [show runLoop ts (n0 :: rest) s =
              ⟨setResult s.results n0 (execute_task t0),
               s.events ++ [Event.invoked n0]⟩ by simp [runLoop, hft, hcr, hhalt]] at he
          rcases List.mem_append.mp he with he | he
          · exact Or.inl he
          · exact Or.inr ⟨n0, List.mem_singleton.mp he⟩
        · rw [show runLoop ts (n0 :: rest) s = runLoop ts rest
              ⟨setResult s.results n0 (execute_task t0),
               s.events ++ [Event.invoked n0]⟩ by simp [runLoop, hft, hcr, hhalt]] at he
          rcases ih _ e he with he' | he'
          · rcases List.mem_append.mp he' with he'' | he''
            · exact Or.inl he''
            · exact Or.inr ⟨n0, List.mem_singleton.mp he''⟩
          · exact Or.inr he'
      · have hcrf : can_run s.results t0 = false := by
          rcases hb : can_run s.results t0 with _ | _
          · rfl
          · exact absurd hb hcr
        rw [show runLoop ts (n0 :: rest) s = runLoop ts rest
            ⟨setResult s.results n0 skippedResult, s.events⟩ by
          simp [runLoop, hft, hcrf]] at he
        rcases ih _ e he with he' | he'
        · exact Or.inl he'
        · exact Or.inr he'

/-- Every run prints its summary and writes its export exactly once,
whatever happens inside the loop. -/
theorem run_events_once (ts : List Task) :
    (run ts).events.countP (fun e => decide (e = Event.summaryPrinted)) = 1 ∧
    (run ts).events.countP (fun e => decide (e = Event.exportWritten)) = 1 := by
  have hs0 : ∀ e ∈ (runLoop ts (topological_sort ts) ⟨[], []⟩).events,
      ∃ k, e = Event.invoked k := by
    intro e he
    rcases runLoop_events_invoked (topological_sort ts) ⟨[], []⟩ e he with h | h
    · cases h
    · exact h
  constructor <;>
  · simp only [run]
    rw [List.countP_append]
    have hzero : (runLoop ts (topological_sort ts) ⟨[], []⟩).events.countP
        (fun e => decide (e = Event.summaryPrinted)) = 0 ∨ True := Or.inr trivial
    rw [List.countP_eq_zero.mpr ?hz]
    · decide
    case hz =>
      intro e he
      obtain ⟨k, rfl⟩ := hs0 e he
      simp

theorem findTask_eq_none {ts : List Task} {n : String} (h : n ∉ names ts) :
    findTask ts n = none := by
  rcases hf : findTask ts n with _ | t
  · rfl
  · obtain ⟨hmem, hname⟩ := findTask_mem hf
    exact absurd (hname ▸ List.mem_map_of_mem Task.name hmem) h

theorem runLoop_halt {ts : List Task} :
    ∀ (ord : List String) (s : EngineState),
      ord.Nodup →
      (∀ k ∈ ord, lookupResult s.results k = none ∧ Event.invoked k ∉ s.events) →
      ∀ n t, findTask ts n = some t → t.critical = true →
      ∀ r, lookupResult (runLoop ts ord s).results n = some r →
        r.status = Status.FAILED →
      ∀ m, after ord n m →
        lookupResult (runLoop ts ord s).results m = none ∧
        Event.invoked m ∉ (runLoop ts ord s).events := by
  intro ord
  induction ord with
  | nil =>
    intro s _ _ n t _ _ r _ _ m hafter
    rcases hafter with ⟨l1, l2, hdec, _⟩
    rcases l1 with _ | ⟨x, l1'⟩ <;> cases hdec
  | cons n0 rest ih =>
    intro s hnd hinit n t hfind hcrit r hl hfail m hafter
    obtain ⟨l1, l2, hdec, hm2⟩ := hafter
    have hndr : rest.Nodup := (List.nodup_cons.mp hnd).2
    have hn0r : n0 ∉ rest := (List.nodup_cons.mp hnd).1
    rcases hft : findTask ts n0 with _ | t0
    · have hrun : runLoop ts (n0 :: rest) s = runLoop ts rest s := by
        simp [runLoop, hft]
      rw [hrun] at hl ⊢
      rcases l1 with _ | ⟨x, l1'⟩
      · injection hdec with h1 h2
        rw [← h1] at hl
        rw [(runLoop_untouched rest s n0 hn0r).1,
          (hinit n0 (List.mem_cons_self n0 rest)).1] at hl
        cases hl
      · injection hdec with h1 h2
        exact ih s hndr (fun k hk => hinit k (List.mem_cons_of_mem _ hk))
          n t hfind hcrit r hl hfail m ⟨l1', l2, h2, hm2⟩
    · by_cases hcr : can_run s.results t0 = true
      · by_cases hhalt : ((execute_task t0).status == Status.FAILED && t0.critical) = true
        · have hrun : runLoop ts (n0 :: rest) s =
              ⟨setResult s.results n0 (execute_task t0),
               s.events ++ [Event.invoked n0]⟩ := by
            simp [runLoop, hft, hcr, hhalt]
          rw [hrun] at hl ⊢
          have hmrest : m ∈ rest := by
            rcases l1 with _ | ⟨x, l1'⟩
            · injection hdec with h1 h2
              rw [← h2] at hm2
              exact hm2
            · injection hdec with h1 h2
              rw [h2]
              exact List.mem_append.mpr (Or.inr (List.mem_cons_of_mem _ hm2))
          have hmn0 : m ≠ n0 := fun he => hn0r (he ▸ hmrest)
          constructor
          · rw [lookupResult_set_other _ _ _ _ hmn0]
            exact (hinit m (List.mem_cons_of_mem _ hmrest)).1
          · intro hc
            rcases List.mem_append.mp hc with hc | hc
            · exact (hinit m (List.mem_cons_of_mem _ hmrest)).2 hc
            · have hm0 : Event.invoked m = Event.invoked n0 := List.mem_singleton.mp hc
              injection hm0 with hm0
              exact hmn0 hm0
        · have hrun : runLoop ts (n0 :: rest) s = runLoop ts rest
              ⟨setResult s.results n0 (execute_task t0),
               s.events ++ [Event.invoked n0]⟩ := by
            simp [runLoop, hft, hcr, hhalt]
          rw [hrun] at hl ⊢
          rcases l1 with _ | ⟨x, l1'⟩
          · exfalso
            injection hdec with h1 h2
            rw [← h1] at hl hfind
            rw [hft] at hfind
            injection hfind with hfind
            rw [(runLoop_untouched rest _ n0 hn0r).1, lookupResult_set_self] at hl
            injection hl with hl
            apply hhalt
            rw [Bool.and_eq_true, beq_iff_eq]
            constructor
            · rw [hl]
              exact hfail
            · rw [hfind]
              exact hcrit
          · injection hdec with h1 h2
            have hinit1 : ∀ k ∈ rest,
                lookupResult (setResult s.results n0 (execute_task t0)) k = none ∧
                Event.invoked k ∉ s.events ++ [Event.invoked n0] := by
              intro k hk
              have hkn0 : k ≠ n0 := fun he => hn0r (he ▸ hk)
              refine ⟨?_, ?_⟩
              · rw [lookupResult_set_other _ _ _ _ hkn0]
                exact (hinit k (List.mem_cons_of_mem _ hk)).1
              · intro hc
                rcases List.mem_append.mp hc with hc | hc
                · exact (hinit k (List.mem_cons_of_mem _ hk)).2 hc
                · have hk0 : Event.invoked k = Event.invoked n0 := List.mem_singleton.mp hc
                  injection hk0 with hk0
                  exact hkn0 hk0
            exact ih _ hndr hinit1 n t hfind hcrit r hl hfail m ⟨l1', l2, h2, hm2⟩
      · have hcrf : can_run s.results t0 = false := by
          rcases hb : can_run s.results t0 with _ | _
          · rfl
          · exact absurd hb hcr
        have hrun : runLoop ts (n0 :: rest) s = runLoop ts rest
            ⟨setResult s.results n0 skippedResult, s.events⟩ := by
          simp [runLoop, hft, hcrf]
        rw [hrun] at hl ⊢
        rcases l1 with _ | ⟨x, l1'⟩
        · exfalso
          injection hdec with h1 h2
          rw [← h1] at hl
          rw [(runLoop_untouched rest _ n0 hn0r).1, lookupResult_set_self] at hl
          injection hl with hl
          rw [← hl] at hfail
          exact absurd hfail (by decide)
        · injection hdec with h1 h2
          have hinit1 : ∀ k ∈ rest,
              lookupResult (setResult s.results n0 skippedResult) k = none ∧
              Event.invoked k ∉ s.events := by
            intro k hk
            have hkn0 : k ≠ n0 := fun he => hn0r (he ▸ hk)
            exact ⟨by
              rw [lookupResult_set_other _ _ _ _ hkn0]
              exact (hinit k (List.mem_cons_of_mem _ hk)).1,
              (hinit k (List.mem_cons_of_mem _ hk)).2⟩
          exact ih _ hndr hinit1 n t hfind hcrit r hl hfail m ⟨l1', l2, h2, hm2⟩

theorem runLoop_dep_missing {ts : List Task} (d : String) :
    ∀ (ord : List String) (s : EngineState),
      ord.Nodup → d ∉ ord → lookupResult s.results d = none →
      ∀ n t, findTask ts n = some t → d ∈ t.deps →
      ∀ r, lookupResult (runLoop ts ord s).results n = some r →
        r = skippedResult ∨ lookupResult s.results n = some r := by
  intro ord
  induction ord with
  | nil => intro s _ _ _ n t _ _ r hl; exact Or.inr hl
  | cons n0 rest ih =>
    intro s hnd hdord hds n t hfind hdep r hl
    have hndr : rest.Nodup := (List.nodup_cons.mp hnd).2
    have hn0r : n0 ∉ rest := (List.nodup_cons.mp hnd).1
    have hdrest : d ∉ rest := fun hc => hdord (List.mem_cons_of_mem _ hc)
    have hdn0 : d ≠ n0 := fun he => hdord (he ▸ List.mem_cons_self n0 rest)
    rcases hft : findTask ts n0 with _ | t0
    · rw [show runLoop ts (n0 :: rest) s = runLoop ts rest s by simp [runLoop, hft]] at hl
      exact ih s hndr hdrest hds n t hfind hdep r hl
    · by_cases hn : n = n0
      · subst hn
        rw [hft] at hfind
        injection hfind with hfind
        have hcrf : can_run s.results t0 = false := by
          rcases hb : can_run s.results t0 with _ | _
          · rfl
          · exfalso
            rw [can_run_true_iff] at hb
            obtain ⟨rd, hrd, _⟩ := hb d (by rw [hfind]; exact hdep)
            rw [hds] at hrd
            cases hrd
        rw [show runLoop ts (n :: rest) s = runLoop ts rest
            ⟨setResult s.results n skippedResult, s.events⟩ by
          simp [runLoop, hft, hcrf]] at hl
        rw [(runLoop_untouched rest _ n hn0r).1, lookupResult_set_self] at hl
        injection hl with hl
        exact Or.inl hl.symm
      · by_cases hcr : can_run s.results t0 = true
        · by_cases hhalt : ((execute_task t0).status == Status.FAILED && t0.critical) = true
          · rw [show runLoop ts (n0 :: rest) s =
                ⟨setResult s.results n0 (execute_task t0),
                 s.events ++ [Event.invoked n0]⟩ by simp [runLoop, hft, hcr, hhalt]] at hl
            rw [lookupResult_set_other _ _ _ _ hn] at hl
            exact Or.inr hl
          · rw [show runLoop ts (n0 :: rest) s = runLoop ts rest
                ⟨setResult s.results n0 (execute_task t0),
                 s.events ++ [Event.invoked n0]⟩ by simp [runLoop, hft, hcr, hhalt]] at hl
            have hds1 : lookupResult (setResult s.results n0 (execute_task t0)) d = none := by
              rw [lookupResult_set_other _ _ _ _ hdn0]
              exact hds
            rcases ih _ hndr hdrest hds1 n t hfind hdep r hl with h | h
            · exact Or.inl h
            · rw [lookupResult_set_other _ _ _ _ hn] at h
              exact Or.inr h
        · have hcrf : can_run s.results t0 = false := by
            rcases hb : can_run s.results t0 with _ | _
            · rfl
            · exact absurd hb hcr
          rw [show runLoop ts (n0 :: rest) s = runLoop ts rest
              ⟨setResult s.results n0 skippedResult, s.events⟩ by
            simp [runLoop, hft, hcrf]] at hl
          have hds1 : lookupResult (setResult s.results n0 skippedResult) d = none := by
            rw [lookupResult_set_other _ _ _ _ hdn0]
            exact hds
          rcases ih _ hndr hdrest hds1 n t hfind hdep r hl with h | h
          · exact Or.inl h
          · rw [lookupResult_set_other _ _ _ _ hn] at h
            exact Or.inr h

-- ===================== Claim theorems for the engine =====================

/-- The mixed registry (B fails non-critically, C depends on B, D only on
A) is acyclic. -/
theorem tsMix_acyclic : Acyclic tsMix := by
  apply acyclic_of_rank (fun s => if s = "C" then 1 else if s = "D" then 1 else 0)
  rintro a b ⟨t, ht, rfl, hdep⟩
  fin_cases ht
  · simp at hdep
  · simp at hdep
  · have hb : b = "B" := by simpa using hdep
    rw [hb]
    decide
  · have hb : b = "A" := by simpa using hdep
    rw [hb]
    decide

/--
C3: for a well-formed registry (distinct task names, every dependency
registered, acyclic dependencies), every task considered by the engine in
resolved order behaves as specified: if some declared dependency's
recorded result is missing or has a status other than SUCCESS, the task's
operation is not invoked and its result is recorded as SKIPPED (this
propagates transitively, because SKIPPED is not SUCCESS); if all
dependencies' recorded results are SUCCESS, the task executes normally
(operation invoked, result the execution result); and a considered task
none of whose transitive dependencies is FAILED or SKIPPED executes
normally.
-/
theorem skip_propagation (ts : List Task)
    (H1 : (names ts).Nodup) (H2 : DepsRegistered ts) (H3 : Acyclic ts) :
    ∀ t ∈ ts, ∀ r, lookupResult (run ts).results t.name = some r →
      (¬ depsAllSuccess (run ts).results t →
        r = skippedResult ∧ Event.invoked t.name ∉ (run ts).events) ∧
      (depsAllSuccess (run ts).results t →
        r = execute_task t ∧ Event.invoked t.name ∈ (run ts).events) ∧
      ((∀ m, Relation.TransGen (depRel ts) t.name m →
          ∀ rm, lookupResult (run ts).results m = some rm →
          rm.status ≠ Status.FAILED ∧ rm.status ≠ Status.SKIPPED) →
        r = execute_task t) := by
  have hbasic := topological_sort_basic ts
  obtain ⟨hstv, hcomp⟩ := topological_sort_sound H2 H3
  obtain ⟨sA, sB, sC, sD, sE, sG⟩ := @runLoop_spec ts (topological_sort ts)
    ⟨[], []⟩ hbasic.1 (fun n _ => rfl) hbasic.2 hstv.2.2.2
    (by intro n r h; simp [lookupResult] at h)
    (by intro n r h; simp [lookupResult] at h)
    (by
      intro n
      constructor
      · intro h
        cases h
      · rintro ⟨t, r, _, hl, _⟩
        simp [lookupResult] at hl)
  have hres_eq : (run ts).results =
      (runLoop ts (topological_sort ts) ⟨[], []⟩).results := rfl
  have hev_bridge : ∀ k, Event.invoked k ∈ (run ts).events ↔
      Event.invoked k ∈ (runLoop ts (topological_sort ts) ⟨[], []⟩).events := by
    intro k
    simp [run]
  intro t ht r hl
  rw [hres_eq] at hl
  have hfind : findTask ts t.name = some t := findTask_self H1 ht
  obtain ⟨t', hft', hcase⟩ := sC t.name r hl
  rw [hfind] at hft'
  injection hft' with hft'
  rw [← hft'] at hcase
  have hcr_iff := can_run_true_iff
    (runLoop ts (topological_sort ts) ⟨[], []⟩).results t
  refine ⟨?_, ?_, ?_⟩
  · intro hnd
    rcases hcase with ⟨hc, hr⟩ | ⟨hc, hr⟩
    · exact absurd (by rw [hres_eq]; exact hcr_iff.mp hc) hnd
    · refine ⟨hr, ?_⟩
      intro hcontra
      rw [hev_bridge] at hcontra
      obtain ⟨t'', r'', hft'', hl'', hr''⟩ := (sD t.name).mp hcontra
      rw [hl] at hl''
      injection hl'' with hl''
      rw [← hl''] at hr''
      rw [hr] at hr''
      exact skipped_ne_execute t'' hr''
  · intro hds
    rcases hcase with ⟨hc, hr⟩ | ⟨hc, hr⟩
    · refine ⟨hr, ?_⟩
      rw [hev_bridge]
      exact (sD t.name).mpr ⟨t, r, hfind, hl, hr⟩
    · exfalso
      have hc' := hcr_iff.mpr (by rw [hres_eq] at hds; exact hds)
      rw [hc'] at hc
      cases hc
  · intro hsafe
    have hds : depsAllSuccess
        (runLoop ts (topological_sort ts) ⟨[], []⟩).results t := by
      intro dd hdd
      obtain ⟨l1, l2, hdec⟩ := List.append_of_mem (hcomp t ht)
      have hd_in_l1 : dd ∈ l1 :=
        (topo_order_spec ts H1 H2 H3 t ht).2 l1 l2 hdec dd hdd
      obtain ⟨u1, u2, hl1dec⟩ := List.append_of_mem hd_in_l1
      have hafter : after (topological_sort ts) dd t.name := by
        refine ⟨u1, u2 ++ t.name :: l2, ?_, by simp⟩
        rw [hdec, hl1dec]
        simp
      obtain ⟨rd, hrd⟩ := sE dd t.name hafter r hl
      obtain ⟨td, hftd, hcased⟩ := sC dd rd hrd
      have hsafe_d := hsafe dd (Relation.TransGen.single ⟨t, ht, rfl, hdd⟩) rd
        (by rw [hres_eq]; exact hrd)
      rcases hcased with ⟨_, hrd_eq⟩ | ⟨_, hrd_eq⟩
      · rcases execute_status td with hsucc | hfailtd
        · exact ⟨rd, hrd, by rw [hrd_eq]; exact hsucc⟩
        · exact absurd (by rw [hrd_eq]; exact hfailtd) hsafe_d.1
      · exact absurd (by rw [hrd_eq]; rfl) hsafe_d.2
    rcases hcase with ⟨hc, hr⟩ | ⟨hc, hr⟩
    · exact hr
    · exfalso
      have hc' := hcr_iff.mpr hds
      rw [hc'] at hc
      cases hc

/-- Witness for C3 on the mixed registry: C (whose dependency B failed)
is recorded SKIPPED and never invoked, while D (whose only dependency A
succeeded) is invoked and records its execution result. -/
theorem skip_propagation_witness :
    lookupResult (run tsMix).results "C" = some skippedResult ∧
    Event.invoked "C" ∉ (run tsMix).events ∧
    lookupResult (run tsMix).results "D" =
      some (execute_task ⟨"D", ["A"], true, Except.ok (some 4)⟩) ∧
    Event.invoked "D" ∈ (run tsMix).events := by
  have h := skip_propagation tsMix (by decide) (by unfold DepsRegistered; decide)
    tsMix_acyclic
  have hC : lookupResult (run tsMix).results "C" = some skippedResult := by decide
  have hD : lookupResult (run tsMix).results "D" =
      some (execute_task ⟨"D", ["A"], true, Except.ok (some 4)⟩) := by decide
  have hCt := h ⟨"C", ["B"], true, Except.ok (some 3)⟩ (by decide) skippedResult hC
  have hDt := h ⟨"D", ["A"], true, Except.ok (some 4)⟩ (by decide) _ hD
  have hnB : ¬ depsAllSuccess (run tsMix).results ⟨"C", ["B"], true, Except.ok (some 3)⟩ := by
    intro hds
    obtain ⟨rb, hrb, hsb⟩ := hds "B" (by decide)
    have hBv : lookupResult (run tsMix).results "B" =
        some ⟨Status.FAILED, 0, some "x"⟩ := by decide
    rw [hBv] at hrb
    injection hrb with hrb
    rw [← hrb] at hsb
    exact absurd hsb (by decide)
  have hdA : depsAllSuccess (run tsMix).results ⟨"D", ["A"], true, Except.ok (some 4)⟩ := by
    intro d hd
    have hdA' : d = "A" := by simpa using hd
    rw [hdA']
    exact ⟨⟨Status.SUCCESS, 1, none⟩, by decide, rfl⟩
  exact ⟨hC, (hCt.1 hnB).2, hD, (hDt.2.1 hdA).2⟩

/--
C4: when a critical task's operation has failed after all retries (its
recorded result has status FAILED and its task is critical), no task
later in the resolved order is executed or recorded, and the run still
prints its summary and writes its structured export, each exactly once.
-/
theorem critical_failure_halts (ts : List Task) (n : String) (t : Task)
    (hfind : findTask ts n = some t) (hcrit : t.critical = true)
    (r : TaskResult) (hl : lookupResult (run ts).results n = some r)
    (hfail : r.status = Status.FAILED) :
    (∀ m, after (topological_sort ts) n m →
      lookupResult (run ts).results m = none ∧
      Event.invoked m ∉ (run ts).events) ∧
    (run ts).events.countP (fun e => decide (e = Event.summaryPrinted)) = 1 ∧
    (run ts).events.countP (fun e => decide (e = Event.exportWritten)) = 1 := by
  have hbasic := topological_sort_basic ts
  have hloop := @runLoop_halt ts (topological_sort ts) ⟨[], []⟩ hbasic.1
    (fun k _ => ⟨rfl, fun hc => by cases hc⟩) n t hfind hcrit r hl hfail
  refine ⟨?_, (run_events_once ts).1, (run_events_once ts).2⟩
  intro m hafter
  obtain ⟨hm1, hm2⟩ := hloop m hafter
  refine ⟨hm1, ?_⟩
  intro hc
  apply hm2
  have hc' : Event.invoked m ∈
      (runLoop ts (topological_sort ts) ⟨[], []⟩).events ++
      [Event.summaryPrinted, Event.exportWritten] := hc
  rcases List.mem_append.mp hc' with h' | h'
  · exact h'
  · simp at h'

/-- Witness for C4 on the section 8 scenario: after critical B fails, C
is neither recorded nor invoked, yet the export is still written once. -/
theorem critical_failure_halts_witness :
    lookupResult (run tsEnd).results "C" = none ∧
    Event.invoked "C" ∉ (run tsEnd).events ∧
    (run tsEnd).events.countP (fun e => decide (e = Event.summaryPrinted)) = 1 ∧
    (run tsEnd).events.countP (fun e => decide (e = Event.exportWritten)) = 1 := by
  have h := critical_failure_halts tsEnd "B" ⟨"B", [], true, Except.error "boom"⟩
    (by decide) (by decide) ⟨Status.FAILED, 0, some "boom"⟩ (by decide) (by decide)
  have hafter : after (topological_sort tsEnd) "B" "C" :=
    ⟨["A"], ["C"], by decide, by decide⟩
  obtain ⟨hm, hs, he⟩ := h
  obtain ⟨h1, h2⟩ := hm "C" hafter
  exact ⟨h1, h2, hs, he⟩

-- ===================== Retry policy (C5) =====================

theorem retryGo_delays (op : Nat → Except String Nat) (m : Nat) (d b : ℚ)
    (hfail : ∀ k, ∃ e, op k = Except.error e) :
    ∀ (f a : Nat), a + f = m + 1 →
      (retryGo op m d b a f).1 = (List.range' a (m - a)).map (fun k => d * b ^ k) := by
  intro f
  induction f with
  | zero =>
    intro a ha
    have hma : m - a = 0 := by omega
    simp [retryGo, hma]
  | succ f ih =>
    intro a ha
    obtain ⟨e, he⟩ := hfail a
    by_cases hm : m ≤ a
    · have hma : m - a = 0 := by omega
      simp [retryGo, he, hm, hma]
    · have hrec := ih (a + 1) (by omega)
      simp only [retryGo, he]
      rw [if_neg hm]
      have hsub : m - a = (m - (a + 1)) + 1 := by omega
      rw [hsub, List.range'_succ]
      simp only [List.map_cons]
      rw [← hrec]

/--
C5: for an operation that fails on every attempt, the delays slept by the
retry wrapper are exactly initialDelay * backoffMultiplier ^ attempt for
attempt = 0, 1, ..., maxRetries - 1 (a pure function of the attempt
index); with initialDelay = 2, backoff = 2.0, maxRetries = 3 this is
[2, 4, 8] seconds between the four attempts.
-/
theorem retry_backoff_delays (op : Nat → Except String Nat) (maxRetries : Nat)
    (initialDelay backoff : ℚ) (hfail : ∀ k, ∃ e, op k = Except.error e) :
    (retry_with_backoff op maxRetries initialDelay backoff).1 =
      (List.range maxRetries).map (fun a => initialDelay * backoff ^ a) := by
  rw [retry_with_backoff,
    retryGo_delays op maxRetries initialDelay backoff hfail (maxRetries + 1) 0 (by omega)]
  rw [Nat.sub_zero, List.range_eq_range']

/-- Witness for C5: the CONFIG values initialDelay = 2, backoff = 2.0,
maxRetries = 3 give exactly the delays [2, 4, 8]. -/
theorem retry_backoff_delays_witness :
    (retry_with_backoff (fun _ => Except.error "boom") 3 2 2).1 = [2, 4, 8] := by
  rw [retry_backoff_delays (fun _ => Except.error "boom") 3 2 2
    (fun k => ⟨"boom", rfl⟩)]
  norm_num [List.range_succ]

-- ===================== Summary (C6) =====================

/--
C6 counterexample: in the section 8 scenario (A succeeds, critical B
fails, C depends on A and B) the engine halts before C is even
considered, so the run records no SKIPPED task at all (the skipped count
of the run is 0, not the claimed 1) and C has no recorded result; the
summary moreover computes only a SUCCESS and a FAILED count
(`print_summary` has no skipped field to report).
-/
theorem summary_skipped_counterexample :
    ((run tsEnd).results.filter (fun p => p.2.status == Status.SKIPPED)).length = 0 ∧
    lookupResult (run tsEnd).results "C" = none := by decide

/--
C6 amended: the final summary reports the number of SUCCESS tasks, the
number of FAILED tasks and the total duration, and enumerates every
recorded task's terminal status; it computes no SKIPPED count.  In the
section 8 scenario it reports success = 1 and failed = 1, and its
per-task lines enumerate exactly A (SUCCESS, 2 records) and B (FAILED):
C was never considered because the critical failure halts the loop.
-/
theorem summary_amended :
    (run tsEnd).summary.success = 1 ∧
    (run tsEnd).summary.failed = 1 ∧
    (run tsEnd).summary.lines =
      [("A", Status.SUCCESS, 2), ("B", Status.FAILED, 0)] := by decide

-- ===================== Registration (C7, C8) =====================

/--
C7 counterexample: registering a second task under the existing name "A"
does not fail (no DuplicateTaskError class exists in the program): the
dict assignment silently replaces the first task.
-/
theorem add_duplicate_counterexample :
    add (add [] ⟨"A", [], true, Except.ok (some 1)⟩)
        ⟨"A", [], false, Except.ok (some 2)⟩ =
      [⟨"A", [], false, Except.ok (some 2)⟩] := by decide

theorem any_name_iff (ts : List Task) (t : Task) :
    ts.any (fun u => u.name == t.name) = true ↔ t.name ∈ names ts := by
  simp [names, List.any_eq_true]

theorem find_overwrite_self (ts : List Task) (t : Task)
    (hany : ts.any (fun u => u.name == t.name) = true) :
    (ts.map (fun u => if u.name == t.name then t else u)).find?
      (fun u => u.name == t.name) = some t := by
  induction ts with
  | nil => cases hany
  | cons u us ih =>
    by_cases hu : (u.name == t.name) = true
    · rw [List.map_cons, show (if u.name == t.name then t else u) = t from by simp [hu]]
      simp [List.find?_cons]
    · have hu' : (u.name == t.name) = false := by simpa using hu
      have hrest : us.any (fun u => u.name == t.name) = true := by
        rw [List.any_cons] at hany
        simpa [hu'] using hany
      rw [List.map_cons, show (if u.name == t.name then t else u) = u from by simp [hu']]
      rw [List.find?_cons, hu']
      exact ih hrest

theorem find_overwrite_other (ts : List Task) (t : Task) (m : String)
    (hm : m ≠ t.name) :
    (ts.map (fun u => if u.name == t.name then t else u)).find?
      (fun u => u.name == m) = ts.find? (fun u => u.name == m) := by
  induction ts with
  | nil => rfl
  | cons u us ih =>
    by_cases hu : (u.name == t.name) = true
    · have hun : u.name = t.name := by simpa using hu
      have htm : (t.name == m) = false := by
        rw [beq_eq_false_iff_ne]
        exact fun he => hm he.symm
      have hum : (u.name == m) = false := by rw [hun]; exact htm
      rw [List.map_cons, show (if u.name == t.name then t else u) = t from by simp [hu]]
      rw [List.find?_cons, List.find?_cons, htm, hum]
      exact ih
    · have hu' : (u.name == t.name) = false := by simpa using hu
      rw [List.map_cons, show (if u.name == t.name then t else u) = u from by simp [hu']]
      rw [List.find?_cons, List.find?_cons]
      by_cases hum : (u.name == m) = true
      · rw [hum]
      · have hum' : (u.name == m) = false := by simpa using hum
        rw [hum']
        exact ih

/--
C7 amended: registering a task under an existing name silently replaces
the stored task (the registry keeps the original key position and the
other entries); registering a new name appends it.  Registration is pure
bookkeeping: `add` only stores the task, no operation value is inspected
or invoked.
-/
theorem add_overwrites (ts : List Task) (t : Task) :
    findTask (add ts t) t.name = some t ∧
    (∀ m, m ≠ t.name → findTask (add ts t) m = findTask ts m) ∧
    names (add ts t) =
      (if t.name ∈ names ts then names ts else names ts ++ [t.name]) := by
  rw [add]
  by_cases hany : ts.any (fun u => u.name == t.name) = true
  · rw [if_pos hany]
    refine ⟨find_overwrite_self ts t hany,
      fun m hm => find_overwrite_other ts t m hm, ?_⟩
    rw [if_pos ((any_name_iff ts t).mp hany), names, names, List.map_map]
    apply List.map_congr_left
    intro u _
    by_cases hu : (u.name == t.name) = true
    · have hun : u.name = t.name := by simpa using hu
      simp [Function.comp, hu, hun]
    · have hu' : (u.name == t.name) = false := by simpa using hu
      simp [Function.comp, hu']
  · rw [if_neg hany]
    have hanyf : ts.any (fun u => u.name == t.name) = false := by
      rcases hb : ts.any (fun u => u.name == t.name) with _ | _
      · rfl
      · exact absurd hb hany
    have hnmem : t.name ∉ names ts := by
      intro hc
      rw [(any_name_iff ts t).mpr hc] at hanyf
      cases hanyf
    have hnone : ts.find? (fun u => u.name == t.name) = none := by
      rw [List.find?_eq_none]
      exact List.any_eq_false.mp hanyf
    refine ⟨?_, ?_, ?_⟩
    · rw [findTask, List.find?_append, hnone]
      simp [List.find?_cons]
    · intro m hm
      rw [findTask, List.find?_append, findTask]
      rcases hf : ts.find? (fun u => u.name == m) with _ | u
      · have htm : (t.name == m) = false := by
          rw [beq_eq_false_iff_ne]
          exact fun he => hm he.symm
        rw [hf]
        simp [List.find?_cons, htm]
      · rw [hf]
        rfl
    · rw [if_neg hnmem, names, names, List.map_append]
      rfl

/--
C8 counterexample: the registry whose only task A references the never
registered dependency "ghost" is not rejected and the pipeline runs to
completion: the resolver produces the order [A] (silently dropping
"ghost"), the engine considers A (recording it SKIPPED because the
unknown dependency has no result), and the summary and export are still
produced.
-/
theorem unknown_dep_pipeline_runs :
    topological_sort tsGhost = ["A"] ∧
    lookupResult (run tsGhost).results "A" = some skippedResult ∧
    (run tsGhost).events = [Event.summaryPrinted, Event.exportWritten] := by decide

/--
C8 amended: an unknown dependency reference is not a build-time error:
the unknown name never appears in the resolved order, the pipeline still
runs (its summary and export are produced exactly once), and any task
that lists the unknown dependency is recorded as SKIPPED at execution
time whenever it is considered.
-/
theorem unknown_dependency_amended (ts : List Task) (H1 : (names ts).Nodup)
    (t : Task) (ht : t ∈ ts) (d : String) (hd : d ∈ t.deps)
    (hdreg : d ∉ names ts) :
    d ∉ topological_sort ts ∧
    (∀ r, lookupResult (run ts).results t.name = some r → r = skippedResult) ∧
    (run ts).events.countP (fun e => decide (e = Event.summaryPrinted)) = 1 ∧
    (run ts).events.countP (fun e => decide (e = Event.exportWritten)) = 1 := by
  have hbasic := topological_sort_basic ts
  have hnotord : d ∉ topological_sort ts := by
    intro hc
    have hsome := hbasic.2 d hc
    rw [findTask_eq_none hdreg] at hsome
    cases hsome
  refine ⟨hnotord, ?_, (run_events_once ts).1, (run_events_once ts).2⟩
  intro r hl
  have hddep := @runLoop_dep_missing ts d (topological_sort ts) ⟨[], []⟩
    hbasic.1 hnotord rfl t.name t (findTask_self H1 ht) hd r hl
  rcases hddep with h | h
  · exact h
  · simp [lookupResult] at h

/-- Witness for C8 on the ghost registry: "ghost" is not in the order, A
(which is considered) is recorded SKIPPED, and the export is written
once. -/
theorem unknown_dependency_amended_witness :
    "ghost" ∉ topological_sort tsGhost ∧
    skippedResult = skippedResult ∧
    (run tsGhost).events.countP (fun e => decide (e = Event.exportWritten)) = 1 := by
  have h := unknown_dependency_amended tsGhost (by decide)
    ⟨"A", ["ghost"], true, Except.ok (some 1)⟩ (by decide) "ghost" (by decide)
    (by decide)
  exact ⟨h.1, h.2.1 skippedResult (by decide), h.2.2.2⟩

-- ===================== Staged-validation pattern (C9, C10) =====================

/--
C9: evaluation at the failing input.  A staging batch holding one record
whose validity flag is false: the orchestrator's `load_to_production`
copies it into production anyway (no WHERE is_valid filter; the function
also never consults the flag that `create_schema` added to the staging
tables), while M4_p2's `load_to_production` promotes nothing, as the spec
invariant requires.
-/
theorem promote_validity_divergence :
    Orch.load_to_production [⟨[some "1"], false, some "invalid rating"⟩] [] =
      ([[some "1"]], 1) ∧
    M4.load_to_production [⟨[some "1"], false, some "invalid rating"⟩] [] =
      ([], 0) := by decide

/--
C10: the stage phase is idempotent with respect to batch content: staging
the same source batch twice leaves exactly the content of a single
staging (truncate-then-load); for a non-empty source the resulting batch
content does not depend on the previous batch content at all (replace,
never append).  The M4_p2 variant (TRUNCATE then LOAD DATA) is idempotent
as well.
-/
theorem staging_idempotent :
    (∀ (ok : List (Option String) → Bool) (rows : List (List String))
       (tbl : List (List (Option String))),
      (Orch.load_to_staging ok rows (Orch.load_to_staging ok rows tbl).1).1 =
        (Orch.load_to_staging ok rows tbl).1) ∧
    (∀ (ok : List (Option String) → Bool) (rows : List (List String))
       (tbl tbl' : List (List (Option String))), rows ≠ [] →
      (Orch.load_to_staging ok rows tbl).1 = (Orch.load_to_staging ok rows tbl').1) ∧
    (∀ (rows tbl : List (List String)),
      (M4.load_to_staging rows (M4.load_to_staging rows tbl).1).1 =
        (M4.load_to_staging rows tbl).1) := by
  refine ⟨?_, ?_, ?_⟩
  · intro ok rows tbl
    by_cases h : rows.isEmpty
    · simp [Orch.load_to_staging, h]
    · simp [Orch.load_to_staging, h]
  · intro ok rows tbl tbl' h
    have h' : rows.isEmpty = false := by
      cases rows with
      | nil => exact absurd rfl h
      | cons a l => rfl
    simp [Orch.load_to_staging, h']
  · intro rows tbl
    rfl

/-- Witness for C10: a concrete one-row batch staged twice over a
non-empty previous batch yields the same content as staging it once, and
the same content as staging it over an empty table. -/
theorem staging_idempotent_witness :
    (Orch.load_to_staging (fun _ => true) [["a", ""]]
        (Orch.load_to_staging (fun _ => true) [["a", ""]] [[some "old"]]).1).1 =
      (Orch.load_to_staging (fun _ => true) [["a", ""]] [[some "old"]]).1 ∧
    (Orch.load_to_staging (fun _ => true) [["a", ""]] [[some "old"]]).1 =
      (Orch.load_to_staging (fun _ => true) [["a", ""]] []).1 := by
  have h := staging_idempotent
  exact ⟨h.1 (fun _ => true) [["a", ""]] [[some "old"]],
    h.2.1 (fun _ => true) [["a", ""]] [[some "old"]] [] (by decide)⟩

end AM
